import Mathlib

/-!
Verification of the photo-gallery server (`hugo_gallery`): a shallow embedding
of its cache-key scheme (`cache_image_hash` / `cache_image_path`), its image
derivative pipeline (`ImageProcessor.ProcessImage` / `resizeImage`), the
`/images/` HTTP handler (`ServeHugo`), and the rebuild coalescer
(`rebuildHugo`), together with proofs about them.

Strings are embedded as `List Char` (Go strings; the code only exercises the
ASCII fragment, and the embedding notes where a definition is restricted to
it).  Stateful, concurrent code (`ProcessImage`, `rebuildHugo`) is embedded as
a small-step transition system: every block that the Go code executes under a
mutex (or that only touches thread-local data) is one atomic step, and a
schedule (list of thread indices) picks the interleaving.
-/

set_option maxRecDepth 40000

namespace HugoGallery

/-- Go strings, embedded as lists of characters. -/
abbrev Str := List Char

/-- ASCII lower-casing of one character.  `strings.ToLower` is Unicode-aware;
the paths and extensions this program compares are ASCII, and the embedding
restricts to that fragment. -/
def lowerChar (c : Char) : Char :=
  if 'A' ≤ c ∧ c ≤ 'Z' then Char.ofNat (c.toNat + 32) else c

/-- `strings.ToLower` (ASCII fragment). -/
def goToLower (s : Str) : Str := s.map lowerChar

/-- Decimal digits of a natural number, most significant first
(`fuel` bounds the recursion; callers pass `n + 1`). -/
def natDigits : Nat → Nat → Str
  | 0, _ => []
  | fuel + 1, n =>
    if n < 10 then [Char.ofNat (48 + n)]
    else natDigits fuel (n / 10) ++ [Char.ofNat (48 + n % 10)]

/-- Rendering of a Go `int` by `fmt`'s `%d` verb. -/
def intToStr (i : Int) : Str :=
  if i < 0 then '-' :: natDigits ((-i).toNat + 1) (-i).toNat
  else natDigits (i.toNat + 1) i.toNat

/-- `strings.TrimSuffix s suffix`: drop `suffix` from the end of `s` when
present, otherwise return `s` unchanged. -/
def goTrimSuffix (s suffix : Str) : Str :=
  if suffix.isSuffixOf s then s.take (s.length - suffix.length) else s

/-- `filepath.Ext`: the suffix of the final slash-separated element starting
at its last dot; empty when the final element has no dot. -/
def goExt (p : Str) : Str :=
  let t := p.reverse.takeWhile (fun c => ¬ c = '/')
  let a := t.takeWhile (fun c => ¬ c = '.')
  if a.length = t.length then [] else '.' :: a.reverse

/-- `filepath.Base` without its special cases: the part of `p` after the last
slash (`p` assumed to have no trailing slash). -/
def afterLastSlash (p : Str) : Str :=
  (p.reverse.takeWhile (fun c => ¬ c = '/')).reverse

/-- `filepath.Base` (unix): empty path gives `"."`; trailing slashes are
stripped; a path of only slashes gives `"/"`. -/
def goBase (p : Str) : Str :=
  if p = [] then ['.']
  else
    let q := (p.reverse.dropWhile (fun c => c = '/')).reverse
    if q = [] then ['/']
    else afterLastSlash q

/-- The prefix of `p` up to and including its last slash (empty when `p` has
no slash): what `filepath.Dir` passes to `Clean`. -/
def upToLastSep (p : Str) : Str :=
  (p.reverse.dropWhile (fun c => ¬ c = '/')).reverse

/-- Backtracking step of `filepath.Clean` for a `..` element: Go's
`out.w--` followed by `for out.w > dotdot && !IsPathSeparator(out.index(out.w))
{ out.w-- }`, returning the new length `out.w` (starting from `w`,
scanning inside `out`). -/
def popElem (out : Str) (dotdot : Nat) : Nat → Nat
  | 0 => 0
  | w + 1 =>
    if dotdot < w ∧ ¬ out.getD w ' ' = '/' then popElem out dotdot w else w

/-- Main loop of `filepath.Clean` (unix), transcribed from Go's `Clean`:
`out` is the output buffer, `dotdot` the point `..` may not erase past,
`rest` the unread input.  `fuel` bounds recursion (callers pass
`rest.length + 1`); each iteration consumes at least one input character. -/
def cleanLoop (rooted : Bool) : Nat → Str → Nat → Str → Str
  | 0, out, _, _ => out
  | _ + 1, out, _, [] => out
  | fuel + 1, out, dotdot, c :: rs =>
    if c = '/' then
      cleanLoop rooted fuel out dotdot rs
    else if c = '.' ∧ (rs = [] ∨ rs.headD ' ' = '/') then
      cleanLoop rooted fuel out dotdot rs
    else if c = '.' ∧ rs.headD ' ' = '.' ∧ (rs.tail = [] ∨ rs.tail.headD ' ' = '/') then
      -- a ".." element
      if dotdot < out.length then
        cleanLoop rooted fuel (out.take (popElem out dotdot (out.length - 1))) dotdot rs.tail
      else if rooted = false then
        let out2 := (if 0 < out.length then out ++ ['/'] else out) ++ ['.', '.']
        cleanLoop rooted fuel out2 out2.length rs.tail
      else
        cleanLoop rooted fuel out dotdot rs.tail
    else
      -- a real path element: copy it, preceded by a slash when needed
      let out2 :=
        if (rooted ∧ ¬ out.length = 1) ∨ (rooted = false ∧ ¬ out.length = 0) then
          out ++ ['/']
        else out
      cleanLoop rooted fuel (out2 ++ c :: rs.takeWhile (fun d => ¬ d = '/')) dotdot
        (rs.dropWhile (fun d => ¬ d = '/'))

/-- `filepath.Clean` (unix). -/
def goClean (p : Str) : Str :=
  if p = [] then ['.']
  else
    let rooted := p.headD ' ' = '/'
    let out :=
      if rooted then cleanLoop true (p.length + 1) ['/'] 1 p.tail
      else cleanLoop false (p.length + 1) [] 0 p
    if out = [] then ['.'] else out

/-- `filepath.Dir` (unix): everything up to the last slash, cleaned. -/
def goDir (p : Str) : Str := goClean (upToLastSep p)

/-- `filepath.Join` for two elements (unix): empty elements are dropped, the
rest joined with a slash and cleaned. -/
def goJoin (a b : Str) : Str :=
  if ¬ a = [] then goClean (a ++ '/' :: b)
  else if ¬ b = [] then goClean b
  else []

/-!  MD5 (`crypto/md5`), on bytes represented as `Nat`s below 256 and 32-bit
words represented as `Nat`s below `2 ^ 32`.  Bitwise operations are written
as bounded structural recursions over the 32 bit positions so that every
concrete hash evaluates by kernel reduction. -/

/-- Bitwise AND of the low `k` bits of two naturals. -/
def bandK : Nat → Nat → Nat → Nat
  | 0, _, _ => 0
  | k + 1, a, b =>
    (if a % 2 = 1 ∧ b % 2 = 1 then 1 else 0) + 2 * bandK k (a / 2) (b / 2)

/-- Bitwise OR of the low `k` bits of two naturals. -/
def borK : Nat → Nat → Nat → Nat
  | 0, _, _ => 0
  | k + 1, a, b =>
    (if a % 2 = 1 ∨ b % 2 = 1 then 1 else 0) + 2 * borK k (a / 2) (b / 2)

/-- Bitwise XOR of the low `k` bits of two naturals. -/
def bxorK : Nat → Nat → Nat → Nat
  | 0, _, _ => 0
  | k + 1, a, b =>
    (if (a % 2 = 1) = (b % 2 = 1) then 0 else 1) + 2 * bxorK k (a / 2) (b / 2)

/-- 32-bit AND. -/
def band32 (a b : Nat) : Nat := bandK 32 a b

/-- 32-bit OR. -/
def bor32 (a b : Nat) : Nat := borK 32 a b

/-- 32-bit XOR. -/
def bxor32 (a b : Nat) : Nat := bxorK 32 a b

/-- 32-bit complement of `x < 2 ^ 32`. -/
def bnot32 (x : Nat) : Nat := (2 ^ 32 - 1) - x % 2 ^ 32

/-- 32-bit addition. -/
def add32 (a b : Nat) : Nat := (a + b) % 2 ^ 32

/-- 32-bit left rotation by `s ≤ 32` bits. -/
def rotl32 (x s : Nat) : Nat :=
  x % 2 ^ (32 - s) * 2 ^ s + x / 2 ^ (32 - s)

/-- The MD5 sine-derived constant table `K`. -/
def md5K : List Nat :=
  [0xd76aa478, 0xe8c7b756, 0x242070db, 0xc1bdceee, 0xf57c0faf, 0x4787c62a, 0xa8304613, 0xfd469501,
   0x698098d8, 0x8b44f7af, 0xffff5bb1, 0x895cd7be, 0x6b901122, 0xfd987193, 0xa679438e, 0x49b40821,
   0xf61e2562, 0xc040b340, 0x265e5a51, 0xe9b6c7aa, 0xd62f105d, 0x02441453, 0xd8a1e681, 0xe7d3fbc8,
   0x21e1cde6, 0xc33707d6, 0xf4d50d87, 0x455a14ed, 0xa9e3e905, 0xfcefa3f8, 0x676f02d9, 0x8d2a4c8a,
   0xfffa3942, 0x8771f681, 0x6d9d6122, 0xfde5380c, 0xa4beea44, 0x4bdecfa9, 0xf6bb4b60, 0xbebfbc70,
   0x289b7ec6, 0xeaa127fa, 0xd4ef3085, 0x04881d05, 0xd9d4d039, 0xe6db99e5, 0x1fa27cf8, 0xc4ac5665,
   0xf4292244, 0x432aff97, 0xab9423a7, 0xfc93a039, 0x655b59c3, 0x8f0ccc92, 0xffeff47d, 0x85845dd1,
   0x6fa87e4f, 0xfe2ce6e0, 0xa3014314, 0x4e0811a1, 0xf7537e82, 0xbd3af235, 0x2ad7d2bb, 0xeb86d391]

/-- The MD5 per-round left-rotation amounts. -/
def md5S : List Nat :=
  [7, 12, 17, 22, 7, 12, 17, 22, 7, 12, 17, 22, 7, 12, 17, 22,
   5, 9, 14, 20, 5, 9, 14, 20, 5, 9, 14, 20, 5, 9, 14, 20,
   4, 11, 16, 23, 4, 11, 16, 23, 4, 11, 16, 23, 4, 11, 16, 23,
   6, 10, 15, 21, 6, 10, 15, 21, 6, 10, 15, 21, 6, 10, 15, 21]

/-- The nonlinear function and message-word index of MD5 step `i` applied to
`(b, c, d)`. -/
def md5F (i b c d : Nat) : Nat × Nat :=
  if i < 16 then (bor32 (band32 b c) (band32 (bnot32 b) d), i)
  else if i < 32 then (bor32 (band32 d b) (band32 (bnot32 d) c), (5 * i + 1) % 16)
  else if i < 48 then (bxor32 b (bxor32 c d), (3 * i + 5) % 16)
  else (bxor32 c (bor32 b (bnot32 d)), (7 * i) % 16)

/-- The 64 steps of one MD5 block: state `(a, b, c, d)`, message words `m`,
step counter `i` running to 64. -/
def md5Steps (m : List Nat) : Nat → Nat × Nat × Nat × Nat → Nat × Nat × Nat × Nat
  | 0, st => st
  | fuel + 1, (a, b, c, d) =>
    let i := 64 - (fuel + 1)
    let fg := md5F i b c d
    let f := add32 (add32 fg.1 a) (add32 (md5K.getD i 0) (m.getD fg.2 0))
    md5Steps m fuel (d, add32 b (rotl32 f (md5S.getD i 0)), b, c)

/-- Split 64 bytes into 16 little-endian 32-bit words. -/
def leWords : Nat → List Nat → List Nat
  | 0, _ => []
  | k + 1, bs =>
    (bs.getD 0 0 + 256 * (bs.getD 1 0 + 256 * (bs.getD 2 0 + 256 * bs.getD 3 0)))
      :: leWords k (bs.drop 4)

/-- Process the (already padded) message 64 bytes at a time, carrying the
chained state; `fuel` bounds recursion (callers pass the message length). -/
def md5Blocks : Nat → List Nat → Nat × Nat × Nat × Nat → Nat × Nat × Nat × Nat
  | 0, _, st => st
  | _ + 1, [], st => st
  | fuel + 1, bs, (a0, b0, c0, d0) =>
    let st := md5Steps (leWords 16 (bs.take 64)) 64 (a0, b0, c0, d0)
    md5Blocks fuel (bs.drop 64) (add32 a0 st.1, add32 b0 st.2.1, add32 c0 st.2.2.1, add32 d0 st.2.2.2)

/-- The 8-byte little-endian encoding of the bit length of the message. -/
def leBytes : Nat → Nat → List Nat
  | 0, _ => []
  | k + 1, n => n % 256 :: leBytes k (n / 256)

/-- MD5 padding: a `0x80` byte, zeros to 56 mod 64, then the bit length,
little-endian, in 8 bytes. -/
def md5Pad (msg : List Nat) : List Nat :=
  let withOne := msg ++ [0x80]
  let zeros := (64 - (withOne.length + 8) % 64) % 64
  withOne ++ List.replicate zeros 0 ++ leBytes 8 (msg.length * 8 % 2 ^ 64)

/-- `md5.Sum`: the 16-byte MD5 digest of a byte sequence. -/
def md5Sum (msg : List Nat) : List Nat :=
  let padded := md5Pad msg
  let st := md5Blocks padded.length padded (0x67452301, 0xefcdab89, 0x98badcfe, 0x10325476)
  leBytes 4 st.1 ++ leBytes 4 st.2.1 ++ leBytes 4 st.2.2.1 ++ leBytes 4 st.2.2.2

/-- One lowercase hexadecimal digit. -/
def hexDigit (n : Nat) : Char :=
  if n < 10 then Char.ofNat (48 + n) else Char.ofNat (87 + n)

/-- `hex.EncodeToString` of a byte sequence. -/
def hexEncode (bs : List Nat) : Str :=
  bs.flatMap (fun b => [hexDigit (b / 16 % 16), hexDigit (b % 16)])

/-- UTF-8 encoding of one character (Go's `[]byte(string)` view). -/
def utf8Char (c : Char) : List Nat :=
  let n := c.toNat
  if n < 0x80 then [n]
  else if n < 0x800 then [0xc0 + n / 64, 0x80 + n % 64]
  else if n < 0x10000 then [0xe0 + n / 4096, 0x80 + n / 64 % 64, 0x80 + n % 64]
  else [0xf0 + n / 262144, 0x80 + n / 4096 % 64, 0x80 + n / 64 % 64, 0x80 + n % 64]

/-- `[]byte(s)`: the UTF-8 bytes of a string. -/
def utf8Bytes (s : Str) : List Nat := s.flatMap utf8Char

/-! ## The cache key scheme (`markdown.go`, `cache_image_hash` /
`cache_image_path`) -/

/-- `cache_image_hash(originalPath, width)`: the first 16 hex characters of
the MD5 of the containing directory, an underscore, the base filename without
its extension, an underscore, and the width (`fmt.Sprintf("%s_%s_%d", ...)`). -/
def cache_image_hash (originalPath : Str) (width : Int) : Str :=
  let dir := goDir originalPath
  let dir_hash := (hexEncode (md5Sum (utf8Bytes dir))).take 16
  let file_name_without_ext := goTrimSuffix (goBase originalPath) (goExt originalPath)
  dir_hash ++ '_' :: file_name_without_ext ++ '_' :: intToStr width

/-- `cache_image_path(originalPath, cacheDir, width)`: the original path for
non-positive widths, otherwise the hash joined to `cacheDir` with the
lower-cased original extension appended. -/
def cache_image_path (originalPath cacheDir : Str) (width : Int) : Str :=
  if width ≤ 0 then originalPath
  else goJoin cacheDir (cache_image_hash originalPath width ++ goToLower (goExt originalPath))

/-! ## The resize pipeline, sequential view (`markdown.go`,
`ImageProcessor.ProcessImage` / `ImageProcessor.resizeImage`)

Source images live in a table mapping a path to either the image's
dimensions or the decode-error message `imaging.Open` reports for it.
`imaging.Resize(src, width, 0, imaging.Lanczos)` is modelled from the spec:
the resize engine scales to the requested width preserving aspect ratio (it
has no upscale short-circuit of its own). -/

/-- Width and height of an image. -/
abbrev Img := Nat × Nat

/-- Look up a key in an association list. -/
def lookupA {α : Type} : List (Str × α) → Str → Option α
  | [], _ => none
  | (k, v) :: rest, key => if k = key then some v else lookupA rest key

/-- Modelled from the spec: `imaging.Resize(src, width, 0, Lanczos)` scales to
the requested width, height in proportion (the `imaging` package is an
external dependency; nothing in this repository inspects the result's
dimensions, so only the output width matters to the claims). -/
def imagingResize (img : Img) (width : Nat) : Img :=
  (width, img.2 * width / img.1)

/-- `ImageProcessor.resizeImage`: open the source (its decode error, if any,
wrapped as `failed to open source image: ...`), resize to `width`, save to
`destPath`.  Returns the written file as `(path, image)`; the save itself is
assumed to succeed (no claim concerns `imaging.Save` I/O failures). -/
def resizeImage (images : List (Str × Except Str Img)) (srcPath destPath : Str)
    (width : Int) : Except Str (Str × Img) :=
  match lookupA images srcPath with
  | none => .error ("failed to open source image: open: no such file".toList)
  | some (.error msg) => .error ("failed to open source image: ".toList ++ msg)
  | some (.ok img) => .ok (destPath, imagingResize img width.toNat)

/-- `ImageProcessor.ProcessImage` as executed by a single caller with a free
concurrency slot and no job registered for its key (the concurrent
bookkeeping of the job table and semaphore is the transition system below).
Returns the served path, the error (if any), and the list of derivative
writes performed. -/
def processImageSeq (cacheDir resourceDir : Str) (images : List (Str × Except Str Img))
    (fs : List Str) (srcRelPath : Str) (width : Int) :
    (Str × Option Str) × List (Str × Img) :=
  let srcPath := goJoin resourceDir srcRelPath
  if width ≤ 0 then ((srcPath, none), [])
  else
    let cachedPath := cache_image_path srcRelPath cacheDir width
    if cachedPath ∈ fs then ((cachedPath, none), [])
    else
      match resizeImage images srcPath cachedPath width with
      | .error e => ((srcPath, some e), [])
      | .ok w => ((cachedPath, none), [w])

/-! ## The `/images/` HTTP handler (`server.go`, `ServeHugo`) -/

/-- `strings.SplitN(s, "/", 2)`: one part when `s` has no slash, otherwise
the part before the first slash and everything after it. -/
def goSplitN2 (s : Str) : List Str :=
  let a := s.takeWhile (fun c => ¬ c = '/')
  if a.length = s.length then [s] else [a, (s.drop a.length).tail]

/-- Decimal digit parse of one character. -/
def digitVal (c : Char) : Option Nat :=
  if '0' ≤ c ∧ c ≤ '9' then some (c.toNat - 48) else none

/-- Accumulate decimal digits into a natural number; `none` on the first
non-digit. -/
def parseDigits : Str → Nat → Option Nat
  | [], acc => some acc
  | c :: rest, acc =>
    match digitVal c with
    | some d => parseDigits rest (acc * 10 + d)
    | none => none

/-- `strconv.Atoi`: optional sign, then at least one digit, nothing else;
errors (as `none`) on malformed input and on 64-bit overflow. -/
def goAtoi (s : Str) : Option Int :=
  let signed : Bool × Str :=
    match s with
    | '+' :: rest => (false, rest)
    | '-' :: rest => (true, rest)
    | _ => (false, s)
  if signed.2 = [] then none
  else
    match parseDigits signed.2 0 with
    | none => none
    | some n =>
      if signed.1 then if n ≤ 2 ^ 63 then some (-(n : Int)) else none
      else if n < 2 ^ 63 then some (n : Int) else none

/-- Value of one hexadecimal digit character. -/
def hexVal (c : Char) : Option Nat :=
  if '0' ≤ c ∧ c ≤ '9' then some (c.toNat - 48)
  else if 'a' ≤ c ∧ c ≤ 'f' then some (c.toNat - 87)
  else if 'A' ≤ c ∧ c ≤ 'F' then some (c.toNat - 70)
  else none

/-- Decoding loop of `url.QueryUnescape`: `%XX` becomes the byte `XX` (kept
here as one character — the claims only exercise ASCII), `+` becomes a
space, anything else is copied; `none` on a malformed escape. -/
def unescapeLoop : Nat → Str → Option Str
  | 0, _ => some []
  | _ + 1, [] => some []
  | fuel + 1, c :: rest =>
    if c = '%' then
      match rest with
      | h1 :: h2 :: rest2 =>
        match hexVal h1, hexVal h2 with
        | some v1, some v2 =>
          match unescapeLoop fuel rest2 with
          | some out => some (Char.ofNat (16 * v1 + v2) :: out)
          | none => none
        | _, _ => none
      | _ => none
    else if c = '+' then
      match unescapeLoop fuel rest with
      | some out => some (' ' :: out)
      | none => none
    else
      match unescapeLoop fuel rest with
      | some out => some (c :: out)
      | none => none

/-- `url.QueryUnescape` with the error discarded, as the handler does
(`fileName, _ := url.QueryUnescape(file)`): a failed unescape leaves the
empty string. -/
def goQueryUnescape (s : Str) : Str :=
  (unescapeLoop (s.length + 1) s).getD []

/-- `strings.Contains`: substring occurrence. -/
def goContains : Str → Str → Bool
  | s, sub =>
    if sub.isPrefixOf s then true
    else
      match s with
      | [] => false
      | _ :: rest => goContains rest sub

/-- The handler's response: not found, invalid width, 429 with a
`Retry-After` header, 500, or serving the file at a path. -/
inductive HResp where
  | notFound
  | badRequest
  | tooMany (retryAfter : Str)
  | internalErr
  | serveFile (path : Str)
deriving DecidableEq, Repr

/-- What the handler did: its response, and whether it invoked
`ImageProcessor.ProcessImage`. -/
structure HandlerOut where
  resp : HResp
  processCalled : Bool
deriving DecidableEq, Repr

/-- The handler's width validation (`server.go` lines 23-32): absent means
width 0; otherwise `Atoi`, rejecting parse errors and negative values. -/
def parseWidth (widthStr : Str) : Option Int :=
  if ¬ widthStr = [] then
    match goAtoi widthStr with
    | none => none
    | some v => if v < 0 then none else some v
  else some 0

/-- The `/images/` handler of `ServeHugo`.  `tail` is the URL path after the
`/images/` prefix, `widthStr` the `w` query parameter (empty when absent),
`relDirOf` the `GetRelPath` database lookup, and `process` the result of
`imageProcessor.ProcessImage` (served path and error, the error as its
message string).  Mirrors `server.go` lines 15-67. -/
def serveImages (photoExts : List Str) (watchDir : Str) (relDirOf : Str → Str)
    (process : Str → Int → Str × Option Str) (tail widthStr : Str) : HandlerOut :=
  let parts := goSplitN2 tail
  if parts.length < 2 then ⟨.notFound, false⟩
  else
    match parseWidth widthStr with
    | none => ⟨.badRequest, false⟩
    | some width =>
      let folderSHA := parts.getD 0 []
      let file := parts.getD 1 []
      let fileName := goQueryUnescape file
      let fileDir := relDirOf folderSHA
      let relPath := goJoin fileDir fileName
      let servedPath := goJoin watchDir relPath
      let fileExt := goToLower (goExt fileName)
      if photoExts.any (fun ext => fileExt = ext) then
        let pr := process relPath width
        match pr.2 with
        | none => ⟨.serveFile pr.1, true⟩
        | some err =>
          if goContains err ("short Huffman data".toList) then
            -- corrupted JPEG: break out and serve the path ProcessImage returned
            ⟨.serveFile pr.1, true⟩
          else if goContains err ("too many concurrent resizes".toList) then
            ⟨.tooMany ("5".toList), true⟩
          else ⟨.internalErr, true⟩
      else ⟨.serveFile servedPath, false⟩

/-! ## The resize pipeline, concurrent view (`markdown.go`,
`ImageProcessor.ProcessImage` lines 112-184)

Each caller of `ProcessImage` is a thread of the transition system; each
block the Go code runs under `jobsMux`, each semaphore operation, the `Stat`
probe and the resize itself are atomic steps (`job.Path`/`job.Error` are
written strictly before `close(job.Done)` and read strictly after `<-job.Done`,
so setting the fields and closing the channel form one step).  A schedule is
a list of thread indices; stepping a blocked thread (a full semaphore on the
background acquire, an unclosed `job.Done` on a wait) leaves the state
unchanged.  Whether a thread's `resizeImage` call would succeed is the
thread's `ok` field; a successful resize appends to `writeLog` (the
`imaging.Save` disk write) and adds the derivative to `fs` (what later
`os.Stat` probes see). -/

/-- The two errors `ProcessImage` can return: the distinguished busy error
(`too many concurrent resizes`) and a `resizeImage` failure. -/
inductive PErr where
  | busy
  | rfail
deriving DecidableEq, Repr

/-- An entry of the `activeJobs` table's backing store: `Done` (closed?),
`Path`, `Error`. -/
structure PJob where
  done : Bool
  path : Str
  error : Option PErr
deriving DecidableEq, Repr

/-- Program counter of one `ProcessImage` caller (or spawned background
goroutine).  `j` is the index of the thread's job in the job store.
* `entry`: about to check `width`/`Stat` (lines 114-123);
* `lockJobs`: about to look up / register in `activeJobs` (lines 129-141);
* `waitJob j`: blocked on `<-job.Done` (line 134);
* `tryAcq j`: at the non-blocking semaphore `select` (lines 144-147);
* `syncRes j` / `bgRes j`: resizing with a slot held (line 175 / 156);
* `syncFin j`: resize finished, about to release the slot and return;
* `bgAcq j`: background goroutine blocked acquiring a slot (line 151);
* `bgFin j`: background resize done, about to delete the job (lines 164-166);
* `bgRel j`: about to release the slot (deferred, line 152);
* `ret r`: returned with result `r` (`none` for a background goroutine). -/
inductive PPC where
  | entry
  | lockJobs
  | waitJob (j : Nat)
  | tryAcq (j : Nat)
  | syncRes (j : Nat)
  | syncFin (j : Nat)
  | bgAcq (j : Nat)
  | bgRes (j : Nat)
  | bgFin (j : Nat)
  | bgRel (j : Nat)
  | ret (r : Option (Str × Option PErr))
deriving DecidableEq, Repr

/-- One thread: its `ProcessImage` arguments, whether its resize would
succeed, and its program counter. -/
structure PThread where
  relPath : Str
  width : Int
  ok : Bool
  pc : PPC
deriving DecidableEq, Repr

/-- The processor's configuration: `cacheDir`, `resourceDir` and the
semaphore capacity `maxConcurrent`. -/
structure PCtx where
  cacheDir : Str
  resourceDir : Str
  cap : Nat
deriving DecidableEq, Repr

/-- Shared state: the threads, the `activeJobs` table (key to job-store
index; Go's map entry holds a pointer, so waiters keep their job after a
`delete`), the append-only job store, the semaphore occupancy, the set of
files on disk and the log of derivative disk writes `(jobKey, destPath)`. -/
structure PState where
  thrs : List PThread
  jobs : List (Str × Nat)
  store : List PJob
  sem : Nat
  fs : List Str
  writeLog : List (Str × Str)
deriving DecidableEq, Repr

/-- Remove every binding of a key (Go's `delete`). -/
def eraseA : List (Str × Nat) → Str → List (Str × Nat)
  | [], _ => []
  | kv :: rest, key => if kv.1 = key then eraseA rest key else kv :: eraseA rest key

/-- `jobKey := fmt.Sprintf("%s_%d", srcRelPath, width)`. -/
def jobKeyOf (t : PThread) : Str := t.relPath ++ '_' :: intToStr t.width

/-- `srcPath := filepath.Join(ip.resourceDir, srcRelPath)`. -/
def srcPathOf (ctx : PCtx) (t : PThread) : Str := goJoin ctx.resourceDir t.relPath

/-- The thread's derivative path. -/
def cachedPathOf (ctx : PCtx) (t : PThread) : Str :=
  cache_image_path t.relPath ctx.cacheDir t.width

/-- Replace thread `i`'s program counter. -/
def setPC (s : PState) (i : Nat) (t : PThread) (pc : PPC) : PState :=
  { s with thrs := s.thrs.set i { t with pc := pc } }

/-- The resize of thread `i` completes (end of `resizeImage` plus the
`job.Path`/`job.Error` stores and `close(job.Done)`): on success the
derivative is written to disk and recorded, on failure the job carries the
error and `job.Path` stays empty. -/
def finishResize (ctx : PCtx) (s : PState) (i : Nat) (t : PThread) (j : Nat) (next : PPC) : PState :=
  if t.ok then
    { s with
      thrs := s.thrs.set i { t with pc := next }
      store := s.store.set j ⟨true, cachedPathOf ctx t, none⟩
      fs := cachedPathOf ctx t :: s.fs
      writeLog := s.writeLog ++ [(jobKeyOf t, cachedPathOf ctx t)] }
  else
    { s with
      thrs := s.thrs.set i { t with pc := next }
      store := s.store.set j ⟨true, [], some .rfail⟩ }

/-- One step of thread `i` (out-of-range indices and finished or blocked
threads leave the state unchanged). -/
def step (ctx : PCtx) (s : PState) (i : Nat) : PState :=
  match s.thrs[i]? with
  | none => s
  | some t =>
    match t.pc with
    | .entry =>
      if t.width ≤ 0 then setPC s i t (.ret (some (srcPathOf ctx t, none)))
      else if cachedPathOf ctx t ∈ s.fs then
        setPC s i t (.ret (some (cachedPathOf ctx t, none)))
      else setPC s i t .lockJobs
    | .lockJobs =>
      match lookupA s.jobs (jobKeyOf t) with
      | some j => setPC s i t (.waitJob j)
      | none =>
        { s with
          thrs := s.thrs.set i { t with pc := .tryAcq s.store.length }
          jobs := (jobKeyOf t, s.store.length) :: s.jobs
          store := s.store ++ [⟨false, [], none⟩] }
    | .waitJob j =>
      match s.store[j]? with
      | some jb => if jb.done then setPC s i t (.ret (some (jb.path, jb.error))) else s
      | none => s
    | .tryAcq j =>
      if s.sem < ctx.cap then
        { s with thrs := s.thrs.set i { t with pc := .syncRes j }, sem := s.sem + 1 }
      else
        -- no slot: spawn the background goroutine, return busy
        { s with
          thrs := (s.thrs.set i { t with pc := .ret (some (srcPathOf ctx t, some .busy)) })
            ++ [{ t with pc := .bgAcq j }] }
    | .syncRes j => finishResize ctx s i t j (.syncFin j)
    | .syncFin _ =>
      { s with
        thrs := s.thrs.set i
          { t with pc := .ret (some (if t.ok then (cachedPathOf ctx t, none)
                                     else (srcPathOf ctx t, some .rfail))) }
        sem := s.sem - 1 }
    | .bgAcq j =>
      if s.sem < ctx.cap then
        { s with thrs := s.thrs.set i { t with pc := .bgRes j }, sem := s.sem + 1 }
      else s
    | .bgRes j => finishResize ctx s i t j (.bgFin j)
    | .bgFin j =>
      { s with
        thrs := s.thrs.set i { t with pc := .bgRel j }
        jobs := eraseA s.jobs (jobKeyOf t) }
    | .bgRel _ =>
      { s with thrs := s.thrs.set i { t with pc := .ret none }, sem := s.sem - 1 }
    | .ret _ => s

/-- Run a schedule. -/
def run (ctx : PCtx) (s : PState) (sched : List Nat) : PState :=
  sched.foldl (step ctx) s

/-- An initial state: every caller at `entry`, no jobs registered, no slot
held, nothing resized yet. -/
def cleanInit (thrs : List PThread) (fs : List Str) : PState :=
  ⟨thrs, [], [], 0, fs, []⟩

/-- A caller thread at `entry`. -/
def mkThread (relPath : Str) (width : Int) (ok : Bool) : PThread :=
  ⟨relPath, width, ok, .entry⟩

/-- Has the thread returned? -/
def isRet (t : PThread) : Bool :=
  match t.pc with
  | .ret _ => true
  | _ => false

/-- All threads have returned. -/
def allDone (s : PState) : Bool := s.thrs.all isRet

/-- Is the thread currently performing a resize for key `k`? -/
def resizingFor (k : Str) (t : PThread) : Bool :=
  decide (jobKeyOf t = k) &&
    match t.pc with
    | .syncRes _ => true
    | .bgRes _ => true
    | _ => false

/-- How many threads are resizing for key `k` right now. -/
def resizingCount (s : PState) (k : Str) : Nat := s.thrs.countP (resizingFor k)

/-! ## The rebuild coalescer (`rebuildHugo`, watcher file lines 343-372)

Each `rebuildHugo` caller is a thread.  Every access to the shared counter
`n_current` is under `mu`, so each locked block is one atomic step; the
increment and the thread-local test `my != 1` fuse into the first step
(`my` equals the counter right after this thread's increment).  The
builder's exit status is read off the schedule entry when the run finishes —
`cmd.Run()`'s error is discarded by the code, so the flag only lands in the
terminal program counter. -/

/-- Program counter of a `rebuildHugo` caller:
* `start`: about to `n_current++` and read `my`;
* `exitDec`: saw `my != 1`, about to decrement and return;
* `waiting`: the leader, polling until `n_current <= 1`;
* `running`: executing the external builder (`cmd.Run()`);
* `doneRan ok`: returned after running the builder (exit status `ok`);
* `doneIdle`: returned without running it. -/
inductive RPC where
  | start
  | exitDec
  | waiting
  | running
  | doneRan (ok : Bool)
  | doneIdle
deriving DecidableEq, Repr

/-- Shared state of the coalescer: the callers and `n_current`. -/
structure RState where
  pcs : List RPC
  n : Nat
deriving DecidableEq, Repr

/-- One step of caller `i`; the schedule supplies the builder outcome `ok`
used when a running builder finishes (the code ignores it, so it only
decorates the terminal pc). -/
def rstep (s : RState) (iok : Nat × Bool) : RState :=
  match s.pcs.get? iok.1 with
  | none => s
  | some pc =>
    match pc with
    | .start =>
      if s.n = 0 then ⟨s.pcs.set iok.1 .waiting, 1⟩
      else ⟨s.pcs.set iok.1 .exitDec, s.n + 1⟩
    | .exitDec => ⟨s.pcs.set iok.1 .doneIdle, s.n - 1⟩
    | .waiting => if s.n ≤ 1 then ⟨s.pcs.set iok.1 .running, s.n⟩ else s
    | .running => ⟨s.pcs.set iok.1 (.doneRan iok.2), s.n - 1⟩
    | .doneRan _ => s
    | .doneIdle => s

/-- Run a schedule of `(thread, builder outcome)` entries. -/
def rrun (s : RState) (sched : List (Nat × Bool)) : RState :=
  sched.foldl rstep s

/-- `N` concurrent `rebuildHugo` callers, counter zero. -/
def rinit (nThreads : Nat) : RState := ⟨List.replicate nThreads .start, 0⟩

/-- Is this caller finished? -/
def rdone (pc : RPC) : Bool :=
  match pc with
  | .doneRan _ => true
  | .doneIdle => true
  | _ => false

/-- All callers have returned. -/
def rAllDone (s : RState) : Bool := s.pcs.all rdone

/-- Did this caller run the builder? -/
def ranBuilder (pc : RPC) : Bool :=
  match pc with
  | .doneRan _ => true
  | _ => false

/-- Number of builder processes currently executing. -/
def runningCount (s : RState) : Nat := s.pcs.countP (fun pc => pc = .running)

/-- Number of finished builder invocations. -/
def ranCount (s : RState) : Nat := s.pcs.countP ranBuilder

/-- Number of callers that have not yet entered (`n_current++` not yet
executed). -/
def startCount (s : RState) : Nat := s.pcs.countP (fun pc => pc = .start)

/-- `p` holds at the start state and after every step of the schedule. -/
def allAlong (p : RState → Bool) : RState → List (Nat × Bool) → Bool
  | s, [] => p s
  | s, iok :: sched => p s && allAlong p (rstep s iok) sched

/-- A burst: no caller enters after some builder run has already finished.
(The coalescing guarantee is per burst — a caller that arrives only after
everything completed starts a fresh burst with its own builder run.) -/
def burstCond (s : RState) : Bool := startCount s = 0 || ranCount s = 0

/-- A fresh caller joining after a burst ended. -/
def appendCaller (s : RState) : RState := ⟨s.pcs ++ [.start], s.n⟩

/-- The basic coalescer invariant: `n_current` counts the callers between
their increment and their decrement, and at most one caller holds the
leader role (`waiting` or `running`). -/
def rInv (s : RState) : Prop :=
  s.n = s.pcs.countP (fun pc => pc = .exitDec ∨ pc = .waiting ∨ pc = .running) ∧
  s.pcs.countP (fun pc => pc = .waiting ∨ pc = .running) ≤ 1

/-- Leaders created so far: callers now leading, plus finished builder runs. -/
def winners (s : RState) : Nat :=
  s.pcs.countP (fun pc => pc = .waiting ∨ pc = .running ∨ ranBuilder pc)

/-- Per-caller bound on the steps it still takes (progress measure). -/
def rweight (pc : RPC) : Nat :=
  match pc with
  | .start => 3
  | .waiting => 2
  | .exitDec => 1
  | .running => 1
  | .doneRan _ => 0
  | .doneIdle => 0

/-- Total progress measure of a coalescer state. -/
def rmeasure (s : RState) : Nat := (s.pcs.map rweight).sum

/-! ## Scenario and invariant vocabulary for the `ProcessImage` claims -/

/-- A state no step can change: every thread has returned. -/
def absorbing (ctx : PCtx) (s : PState) : Prop := ∀ i, step ctx s i = s

/-- `N` concurrent `ProcessImage` callers for the same
`(srcRelPath, width)`, all of whose resizes would succeed, on a fresh
processor. -/
def sameKeyInit (r : Str) (w : Int) (fs0 : List Str) (nThreads : Nat) : PState :=
  cleanInit (List.replicate nThreads (mkThread r w true)) fs0

/-- Does the thread own the current job for key `k` — registered it and not
yet handed it over (synchronous callers between registration and return,
background goroutines between spawn and the semaphore release)? -/
def ownerFor (k : Str) (t : PThread) : Bool :=
  decide (jobKeyOf t = k) &&
    match t.pc with
    | .tryAcq _ => true
    | .syncRes _ => true
    | .syncFin _ => true
    | .bgAcq _ => true
    | .bgRes _ => true
    | .bgFin _ => true
    | _ => false

/-- The de-duplication invariant: each key has at most one owner, and an
unregistered key has none. -/
def dedupInv (s : PState) : Prop :=
  ∀ k : Str, s.thrs.countP (ownerFor k) ≤ 1 ∧
    (lookupA s.jobs k = none → s.thrs.countP (ownerFor k) = 0)

/-- Program counters a non-owner may hold in the same-key scenario before
the resize completes. -/
def preRes (pc : PPC) : Prop :=
  pc = .entry ∨ pc = .lockJobs ∨ pc = .waitJob 0

/-- Program counters a non-owner may hold in the same-key scenario once the
resize has completed and the derivative `p` exists. -/
def postRes (p : Str) (pc : PPC) : Prop :=
  pc = .entry ∨ pc = .lockJobs ∨ pc = .waitJob 0 ∨ pc = .ret (some (p, none))

/-- Every thread of the same-key scenario carries the scenario's arguments
and a succeeding resize. -/
def uniformThr (r : Str) (w : Int) (s : PState) : Prop :=
  ∀ t ∈ s.thrs, t.relPath = r ∧ t.width = w ∧ t.ok = true

/-- All threads except `oi` satisfy `allowed`. -/
def othersAllowed (allowed : PPC → Prop) (s : PState) (oi : Nat) : Prop :=
  ∀ k, ¬ k = oi → ∀ t, s.thrs[k]? = some t → allowed t.pc

/-- Same-key scenario, phase 0: nothing registered yet. -/
def phase0 (fs0 : List Str) (s : PState) : Prop :=
  s.jobs = [] ∧ s.store = [] ∧ s.sem = 0 ∧ s.fs = fs0 ∧ s.writeLog = [] ∧
  ∀ t ∈ s.thrs, t.pc = .entry ∨ t.pc = .lockJobs

/-- Same-key scenario, phase 1: one caller registered the job and is heading
into (or through) the synchronous resize; nothing written yet. -/
def phase1 (key : Str) (fs0 : List Str) (s : PState) : Prop :=
  s.jobs = [(key, 0)] ∧ s.store = [⟨false, [], none⟩] ∧ s.fs = fs0 ∧ s.writeLog = [] ∧
  ∃ oi t, s.thrs[oi]? = some t ∧
    ((t.pc = .tryAcq 0 ∧ s.sem = 0) ∨ (t.pc = .syncRes 0 ∧ s.sem = 1)) ∧
    othersAllowed preRes s oi

/-- Same-key scenario, phase 2: the resize completed and was written; the
owner still holds its slot. -/
def phase2 (key p : Str) (fs0 : List Str) (s : PState) : Prop :=
  s.jobs = [(key, 0)] ∧ s.store = [⟨true, p, none⟩] ∧ s.fs = p :: fs0 ∧
  s.writeLog = [(key, p)] ∧ s.sem = 1 ∧
  ∃ oi t, s.thrs[oi]? = some t ∧ t.pc = .syncFin 0 ∧ othersAllowed (postRes p) s oi

/-- Same-key scenario, phase 3: the owner released its slot and returned. -/
def phase3 (key p : Str) (fs0 : List Str) (s : PState) : Prop :=
  s.jobs = [(key, 0)] ∧ s.store = [⟨true, p, none⟩] ∧ s.fs = p :: fs0 ∧
  s.writeLog = [(key, p)] ∧ s.sem = 0 ∧ ∀ t ∈ s.thrs, postRes p t.pc

/-- The same-key scenario invariant: uniform threads, and one of the four
phases. -/
def phi (ctx : PCtx) (r : Str) (w : Int) (fs0 : List Str) (s : PState) : Prop :=
  uniformThr r w s ∧
  (phase0 fs0 s ∨
   phase1 (jobKeyOf (mkThread r w true)) fs0 s ∨
   phase2 (jobKeyOf (mkThread r w true)) (cachedPathOf ctx (mkThread r w true)) fs0 s ∨
   phase3 (jobKeyOf (mkThread r w true)) (cachedPathOf ctx (mkThread r w true)) fs0 s)

/-! # Lemmas -/

/-! ## List helpers -/

theorem dropWhile_append_all {p : Char → Bool} {l1 : Str} (l2 : Str)
    (h : ∀ c ∈ l1, p c = true) : (l1 ++ l2).dropWhile p = l2.dropWhile p := by
  induction l1 with
  | nil => rfl
  | cons c rest ih =>
    simp only [List.cons_append, List.dropWhile_cons, h c (by simp)]
    exact ih (fun d hd => h d (by simp [hd]))

theorem takeWhile_append_all {p : Char → Bool} {l1 : Str} (l2 : Str)
    (h : ∀ c ∈ l1, p c = true) : (l1 ++ l2).takeWhile p = l1 ++ l2.takeWhile p := by
  induction l1 with
  | nil => rfl
  | cons c rest ih =>
    simp only [List.cons_append, List.takeWhile_cons, h c (by simp), if_true]
    simp only [List.cons.injEq, true_and]
    exact ih (fun d hd => h d (by simp [hd]))

theorem countP_set_balance {α : Type} (p : α → Bool) (l : List α) (i : Nat) (a x : α)
    (h : l[i]? = some a) :
    (l.set i x).countP p + (if p a then 1 else 0) =
      l.countP p + (if p x then 1 else 0) := by
  have hi : i < l.length := by
    by_contra hc
    simp [List.getElem?_eq_none (Nat.le_of_not_lt hc)] at h
  have ha : l[i] = a := by
    have := h
    rw [List.getElem?_eq_getElem hi] at this
    simpa using this
  rw [List.set_eq_take_cons_drop x hi]
  conv_rhs => rw [← List.take_append_drop i l, List.drop_eq_getElem_cons hi, ha]
  simp [List.countP_append, List.countP_cons]
  omega

theorem countP_mono_pred {α : Type} (p q : α → Bool) (l : List α)
    (h : ∀ a ∈ l, p a = true → q a = true) : l.countP p ≤ l.countP q := by
  induction l with
  | nil => simp
  | cons c rest ih =>
    have hr := ih (fun a ha hp => h a (by simp [ha]) hp)
    by_cases hc : p c = true
    · simp [List.countP_cons, hc, h c (by simp) hc]
      omega
    · simp only [List.countP_cons, hc]
      simp only [Bool.not_eq_true] at hc
      simp [hc]
      by_cases hq : q c = true <;> simp [hq] <;> omega

/-! ## Path-scheme lemmas (towards C10) -/

theorem ext_no_slash (p : Str) : ∀ c ∈ goExt p, ¬ c = '/' := by
  intro c hc
  simp only [goExt] at hc
  split at hc
  · simp at hc
  · rcases List.mem_cons.mp hc with h | h
    · subst h; decide
    · have h2 := List.mem_reverse.mp h
      have h3 := List.takeWhile_sublist (l := p.reverse.takeWhile (fun c => ¬ c = '/'))
        (p := fun c => ¬ c = '.')
      have h4 := h3.mem h2
      have := List.mem_takeWhile_imp h4
      simpa using this

theorem toLower_nil_iff (e : Str) : goToLower e = [] ↔ e = [] := by
  unfold goToLower
  simp

theorem upToLastSep_append (s e : Str) (h : ∀ c ∈ e, ¬ c = '/') :
    upToLastSep (s ++ e) = upToLastSep s := by
  unfold upToLastSep
  rw [List.reverse_append]
  rw [dropWhile_append_all s.reverse]
  intro c hc
  have := h c (List.mem_reverse.mp hc)
  simpa using this

theorem base_append (s e : Str) (he : ¬ e = []) (h : ∀ c ∈ e, ¬ c = '/') :
    goBase (s ++ e) = (s.reverse.takeWhile (fun c => ¬ c = '/')).reverse ++ e := by
  unfold goBase
  have hne : ¬ s ++ e = [] := by simp [he]
  rw [if_neg hne]
  obtain ⟨c, rest, hrev⟩ : ∃ c rest, e.reverse = c :: rest := by
    cases hev : e.reverse with
    | nil => exact absurd (by simpa using congrArg List.reverse hev) he
    | cons c rest => exact ⟨c, rest, rfl⟩
  have hc : ¬ c = '/' := by
    have : c ∈ e.reverse := by simp [hrev]
    exact h c (List.mem_reverse.mp this)
  have hdrop : ((s ++ e).reverse.dropWhile (fun c => c = '/')) = (s ++ e).reverse := by
    rw [List.reverse_append, hrev]
    simp [List.dropWhile_cons, hc]
  rw [hdrop, List.reverse_reverse, if_neg hne]
  unfold afterLastSlash
  rw [List.reverse_append]
  rw [takeWhile_append_all s.reverse (by intro d hd; simpa using h d (List.mem_reverse.mp hd))]
  simp

theorem trimSuffix_append (x e : Str) : goTrimSuffix (x ++ e) e = x := by
  unfold goTrimSuffix
  have hsuf : e.isSuffixOf (x ++ e) = true := by
    rw [List.isSuffixOf]
    simp [List.isPrefixOf_iff_prefix]
  rw [if_pos hsuf]
  simp [List.take_left]

/-- C10's core: two paths with a common stem whose extensions agree up to
case produce the same hash inputs. -/
theorem hash_inputs_eq (s e1 e2 : Str) (he1 : ¬ e1 = []) (he2 : ¬ e2 = [])
    (hs1 : ∀ c ∈ e1, ¬ c = '/') (hs2 : ∀ c ∈ e2, ¬ c = '/')
    (hx1 : goExt (s ++ e1) = e1) (hx2 : goExt (s ++ e2) = e2) :
    goDir (s ++ e1) = goDir (s ++ e2) ∧
      goTrimSuffix (goBase (s ++ e1)) (goExt (s ++ e1)) =
        goTrimSuffix (goBase (s ++ e2)) (goExt (s ++ e2)) := by
  constructor
  · unfold goDir
    rw [upToLastSep_append s e1 hs1, upToLastSep_append s e2 hs2]
  · rw [hx1, hx2, base_append s e1 he1 hs1, base_append s e2 he2 hs2,
      trimSuffix_append, trimSuffix_append]

/-! # Claim theorems -/

/-- C8 (counterexample): `cache_image_hash` does not fail on the empty
original path — it returns an ordinary key (the directory of `""` is `"."`
and so is its stem), contradicting the claimed `InvalidArgument` failure. -/
theorem c8_empty_path_returns_key :
    cache_image_hash [] 200 = "5058f1af8388633f_._200".toList := by
  decide

/-- C8 (amended): the key derivation is a pure, total function of the path
and width alone — the sixteen-hex-character directory hash, the stem and the
width — with no error cases; in particular the empty path is keyed like any
other, via directory `"."` and stem `"."`. -/
theorem c8_key_scheme_total :
    (∀ (p : Str) (w : Int), cache_image_hash p w =
      (hexEncode (md5Sum (utf8Bytes (goDir p)))).take 16 ++
        '_' :: goTrimSuffix (goBase p) (goExt p) ++ '_' :: intToStr w) ∧
    (∀ w : Int, cache_image_hash [] w =
      (hexEncode (md5Sum (utf8Bytes ['.']))).take 16 ++ '_' :: '.' :: '_' :: intToStr w) := by
  constructor
  · intro p w
    rfl
  · intro w
    have hdir : goDir ([] : Str) = ['.'] := by decide
    have hstem : goTrimSuffix (goBase []) (goExt []) = ['.'] := by decide
    show (hexEncode (md5Sum (utf8Bytes (goDir [])))).take 16 ++
        '_' :: goTrimSuffix (goBase []) (goExt []) ++ '_' :: intToStr w = _
    rw [hdir, hstem]
    simp

/-- C10: two original paths that differ only in the letter-case of their
filename extension map to the identical derivative path — the key hash
strips the extension and the appended extension is lower-cased. -/
theorem c10_case_insensitive_ext_shares_derivative
    (s e1 e2 p1 p2 cacheDir : Str) (w : Int)
    (hp1 : p1 = s ++ e1) (hp2 : p2 = s ++ e2)
    (hx1 : goExt p1 = e1) (hx2 : goExt p2 = e2)
    (hlow : goToLower e1 = goToLower e2) (hw : 0 < w) :
    cache_image_path p1 cacheDir w = cache_image_path p2 cacheDir w := by
  subst hp1 hp2
  by_cases he1 : e1 = []
  · have he2 : e2 = [] := by
      rw [← toLower_nil_iff, ← hlow, he1]
      rfl
    rw [he1, he2]
  · have he2 : ¬ e2 = [] := by
      intro h
      exact he1 (by rw [← toLower_nil_iff, hlow, h]; rfl)
    have hs1 : ∀ c ∈ e1, ¬ c = '/' := hx1 ▸ ext_no_slash (s ++ e1)
    have hs2 : ∀ c ∈ e2, ¬ c = '/' := hx2 ▸ ext_no_slash (s ++ e2)
    obtain ⟨hdir, hstem⟩ := hash_inputs_eq s e1 e2 he1 he2 hs1 hs2 hx1 hx2
    have hwle : ¬ w ≤ 0 := not_le.mpr hw
    show cache_image_path _ _ _ = cache_image_path _ _ _
    unfold cache_image_path cache_image_hash
    rw [if_neg hwle, if_neg hwle, hdir, hstem, hx1, hx2, hlow]

/-- C10 (witness): `d/a.JPG` and `d/a.jpg` at width 200 share a derivative
path. -/
theorem c10_case_insensitive_ext_shares_derivative_witness :
    cache_image_path "d/a.JPG".toList "c".toList 200 =
      cache_image_path "d/a.jpg".toList "c".toList 200 :=
  c10_case_insensitive_ext_shares_derivative
    "d/a".toList ".JPG".toList ".jpg".toList _ _ "c".toList 200
    (by decide) (by decide) (by decide) (by decide) (by decide) (by decide)

/-- C9: a request whose (lower-cased) filename extension is not a configured
photo extension never invokes `ProcessImage` and serves the original file
from the watched directory, for any validated width. -/
theorem c9_non_photo_served_unprocessed
    (photoExts : List Str) (watchDir : Str) (relDirOf : Str → Str)
    (process : Str → Int → Str × Option Str) (tail widthStr a b : Str)
    (hparts : goSplitN2 tail = [a, b])
    (hw : ¬ parseWidth widthStr = none)
    (hext : ∀ ext ∈ photoExts, ¬ goToLower (goExt (goQueryUnescape b)) = ext) :
    serveImages photoExts watchDir relDirOf process tail widthStr =
      ⟨.serveFile (goJoin watchDir (goJoin (relDirOf a) (goQueryUnescape b))), false⟩ := by
  unfold serveImages
  rw [hparts]
  cases hpw : parseWidth widthStr with
  | none => exact absurd hpw hw
  | some wv =>
    have hany : (photoExts.any
        (fun ext => goToLower (goExt (goQueryUnescape b)) = ext)) = false := by
      rw [List.any_eq_false]
      intro ext hm
      simpa using hext ext hm
    simp [hany]

/-- C9 (witness): an `.mp4` request with width 200 is served from the
watched directory untouched. -/
theorem c9_non_photo_served_unprocessed_witness :
    serveImages [".jpg".toList, ".png".toList] "watch".toList
      (fun _ => "d".toList) (fun p _ => (p, none)) "sha1/clip.mp4".toList "200".toList =
      ⟨.serveFile ("watch/d/clip.mp4".toList), false⟩ := by
  have h := c9_non_photo_served_unprocessed [".jpg".toList, ".png".toList]
    "watch".toList (fun _ => "d".toList) (fun p _ => (p, none))
    "sha1/clip.mp4".toList "200".toList "sha1".toList "clip.mp4".toList
    (by decide) (by decide) (by decide)
  rw [h]
  decide

/-- C6 (counterexample): a decode failure (`image: unknown format`, the
error `imaging.Open` reports for an unsupported image) produces a 500 —
the handler only recognizes `short Huffman data` as a fall-back case. -/
theorem c6_decode_error_can_500 :
    serveImages [".jpg".toList] "watch".toList (fun _ => "d".toList)
      (fun p _ => (p, some ("failed to open source image: image: unknown format".toList)))
      "sha1/a.jpg".toList "200".toList = ⟨.internalErr, true⟩ := by
  decide

/-- C6 (amended): on a decode error the handler serves the path
`ProcessImage` returned (the original) only when the message contains
`short Huffman data`; any other decode error (not carrying the busy marker)
is answered with a 500. -/
theorem c6_decode_error_dispatch
    (photoExts : List Str) (watchDir : Str) (relDirOf : Str → Str)
    (process : Str → Int → Str × Option Str) (tail widthStr a b pPath msg err : Str) (wv : Int)
    (hparts : goSplitN2 tail = [a, b])
    (hpw : parseWidth widthStr = some wv)
    (hext : (photoExts.any
      (fun ext => goToLower (goExt (goQueryUnescape b)) = ext)) = true)
    (_herr : err = "failed to open source image: ".toList ++ msg)
    (hpr : process (goJoin (relDirOf a) (goQueryUnescape b)) wv = (pPath, some err)) :
    (goContains err ("short Huffman data".toList) = true →
      serveImages photoExts watchDir relDirOf process tail widthStr =
        ⟨.serveFile pPath, true⟩) ∧
    (goContains err ("short Huffman data".toList) = false →
      goContains err ("too many concurrent resizes".toList) = false →
      serveImages photoExts watchDir relDirOf process tail widthStr =
        ⟨.internalErr, true⟩) := by
  constructor
  · intro hhuff
    simp only [String.toList] at hhuff
    unfold serveImages
    rw [hparts]
    simp [hpw, hext, hpr, hhuff]
  · intro hhuff hbusy
    simp only [String.toList] at hhuff hbusy
    unfold serveImages
    rw [hparts]
    simp [hpw, hext, hpr, hhuff, hbusy]

/-- C6 (witness): the `short Huffman data` message falls back to the
returned path; the `unknown format` message yields a 500. -/
theorem c6_decode_error_dispatch_witness :
    serveImages [".jpg".toList] "w".toList (fun _ => "d".toList)
      (fun p _ => (p, some ("failed to open source image: invalid JPEG format: short Huffman data".toList)))
      "s/b.jpg".toList [] = ⟨.serveFile ("d/b.jpg".toList), true⟩ ∧
    serveImages [".jpg".toList] "w".toList (fun _ => "d".toList)
      (fun p _ => (p, some ("failed to open source image: image: unknown format".toList)))
      "s/b.jpg".toList [] = ⟨.internalErr, true⟩ := by
  constructor
  · exact (c6_decode_error_dispatch [".jpg".toList] "w".toList (fun _ => "d".toList)
      (fun p _ => (p, some ("failed to open source image: invalid JPEG format: short Huffman data".toList)))
      "s/b.jpg".toList [] "s".toList "b.jpg".toList ("d/b.jpg".toList)
      ("invalid JPEG format: short Huffman data".toList)
      ("failed to open source image: invalid JPEG format: short Huffman data".toList) 0
      (by decide) (by decide) (by decide) (by decide) (by decide)).1 (by decide)
  · exact (c6_decode_error_dispatch [".jpg".toList] "w".toList (fun _ => "d".toList)
      (fun p _ => (p, some ("failed to open source image: image: unknown format".toList)))
      "s/b.jpg".toList [] "s".toList "b.jpg".toList ("d/b.jpg".toList)
      ("image: unknown format".toList)
      ("failed to open source image: image: unknown format".toList) 0
      (by decide) (by decide) (by decide) (by decide) (by decide)).2 (by decide) (by decide)

/-- C2 (counterexample): for a source image of width 800, requesting width
1200 resizes anyway — the pipeline returns the derivative path (not the
original) and writes an upscaled 1200×900 derivative. -/
theorem c2_upscale_still_resizes :
    processImageSeq "cache".toList "photos".toList
      [("photos/d/a.jpg".toList, .ok (800, 600))] [] "d/a.jpg".toList 1200 =
      (("cache/8277e0910d750195_a_1200.jpg".toList, none),
        [("cache/8277e0910d750195_a_1200.jpg".toList, (1200, 900))]) ∧
    ¬ ("cache/8277e0910d750195_a_1200.jpg".toList =
        goJoin "photos".toList "d/a.jpg".toList) := by
  constructor
  · decide
  · decide

/-- C2 (amended): the pipeline has no upscale short-circuit: whenever the
requested width is positive, the derivative is not cached and the source
decodes, it resizes to exactly the requested width — whatever the source
width — and writes the derivative. -/
theorem c2_no_upscale_guard
    (cacheDir resourceDir : Str) (images : List (Str × Except Str Img))
    (fs : List Str) (relPath : Str) (w : Int) (img : Img)
    (hw : 0 < w)
    (hopen : lookupA images (goJoin resourceDir relPath) = some (.ok img))
    (hmiss : cache_image_path relPath cacheDir w ∉ fs) :
    processImageSeq cacheDir resourceDir images fs relPath w =
      ((cache_image_path relPath cacheDir w, none),
        [(cache_image_path relPath cacheDir w, imagingResize img w.toNat)]) ∧
    (imagingResize img w.toNat).1 = w.toNat := by
  refine ⟨?_, rfl⟩
  unfold processImageSeq resizeImage
  rw [if_neg (not_le.mpr hw), if_neg hmiss, hopen]

/-- C2 (witness): the amended behavior at a concrete 800-wide source and
requested width 1200. -/
theorem c2_no_upscale_guard_witness :
    processImageSeq "c".toList "r".toList [("r/b.png".toList, .ok (800, 600))] []
      "b.png".toList 1200 =
      ((cache_image_path "b.png".toList "c".toList 1200, none),
        [(cache_image_path "b.png".toList "c".toList 1200, imagingResize (800, 600) 1200)]) ∧
    (imagingResize (800, 600) (Int.toNat 1200)).1 = Int.toNat 1200 :=
  c2_no_upscale_guard "c".toList "r".toList [("r/b.png".toList, .ok (800, 600))] []
    "b.png".toList 1200 (800, 600) (by decide) (by rfl) (by decide)

/-! ## The same-key scenario invariant (towards C1, C3, C4, C5) -/


theorem getq_mem_iff {α : Type} (l : List α) (a : α) : a ∈ l ↔ ∃ n : Nat, l[n]? = some a := by
  constructor
  · intro h
    obtain ⟨n, hn⟩ := List.mem_iff_get?.mp h
    exact ⟨n, by rw [← List.get?_eq_getElem?]; exact hn⟩
  · intro ⟨n, hn⟩
    exact List.getElem?_mem hn

theorem getq_set_self {α : Type} (l : List α) (i : Nat) (a x : α) (h : l[i]? = some a) :
    (l.set i x)[i]? = some x := by
  have hi : i < l.length := by
    by_contra hc
    simp [List.getElem?_eq_none (Nat.le_of_not_lt hc)] at h
  simp [List.getElem?_set_self, hi]

theorem getq_set_ne {α : Type} (l : List α) (i j : Nat) (x : α) (h : ¬ i = j) :
    (l.set i x)[j]? = l[j]? := by
  simp [List.getElem?_set_ne h]

theorem uniform_set (r : Str) (w : Int) (s : PState) (i : Nat) (t : PThread) (pc : PPC)
    (hu : uniformThr r w s) (ht : t.relPath = r ∧ t.width = w ∧ t.ok = true) :
    ∀ t2 ∈ s.thrs.set i { t with pc := pc }, t2.relPath = r ∧ t2.width = w ∧ t2.ok = true := by
  intro t2 ht2
  rcases List.mem_or_eq_of_mem_set ht2 with h | h
  · exact hu t2 h
  · subst h; exact ht

theorem phi_step (ctx : PCtx) (r : Str) (w : Int) (fs0 : List Str) (s : PState) (i : Nat)
    (hcap : 1 ≤ ctx.cap) (hw : 0 < w)
    (hmiss : ¬ cachedPathOf ctx (mkThread r w true) ∈ fs0)
    (h : phi ctx r w fs0 s) : phi ctx r w fs0 (step ctx s i) := by
  obtain ⟨huni, hphase⟩ := h
  cases hg : s.thrs[i]? with
  | none =>
    have : step ctx s i = s := by simp [step, hg]
    rw [this]
    exact ⟨huni, hphase⟩
  | some t =>
    have htm : t ∈ s.thrs := List.getElem?_mem hg
    obtain ⟨htr, htw, htok⟩ := huni t htm
    have hkey : jobKeyOf t = jobKeyOf (mkThread r w true) := by
      simp [jobKeyOf, htr, htw, mkThread]
    have hcp : cachedPathOf ctx t = cachedPathOf ctx (mkThread r w true) := by
      simp [cachedPathOf, htr, htw, mkThread]
    have hwle : ¬ t.width ≤ 0 := by rw [htw]; exact not_le.mpr hw
    rcases hphase with h0 | h1 | h2 | h3
    · -- phase 0
      obtain ⟨hjobs, hstore, hsem, hfs, hlog, hpcs⟩ := h0
      rcases hpcs t htm with htpc | htpc
      · -- entry → lockJobs
        have hnfs : ¬ cachedPathOf ctx t ∈ s.fs := by rw [hcp, hfs]; exact hmiss
        have hstep : step ctx s i = setPC s i t .lockJobs := by
          simp [step, hg, htpc, hwle, hnfs]
        rw [hstep]
        try simp only [setPC]
        refine ⟨uniform_set r w s i t _ huni ⟨htr, htw, htok⟩, Or.inl ?_⟩
        refine ⟨hjobs, hstore, hsem, hfs, hlog, ?_⟩
        intro t2 ht2
        rcases List.mem_or_eq_of_mem_set ht2 with hm | hm
        · exact hpcs t2 hm
        · subst hm; simp
      · -- lockJobs → register, tryAcq
        have hstep : step ctx s i =
            { s with
              thrs := s.thrs.set i { t with pc := .tryAcq s.store.length }
              jobs := (jobKeyOf t, s.store.length) :: s.jobs
              store := s.store ++ [⟨false, [], none⟩] } := by
          simp [step, hg, htpc, hjobs, lookupA]
        rw [hstep]
        try simp only [setPC]
        refine ⟨uniform_set r w s i t _ huni ⟨htr, htw, htok⟩, Or.inr (Or.inl ?_)⟩
        rw [hstore, hjobs]
        refine ⟨by simp [hkey], by simp, hfs, hlog, i, { t with pc := .tryAcq 0 }, ?_, ?_, ?_⟩
        · simp only [hstore, List.length_nil]
          exact getq_set_self s.thrs i t _ hg
        · left; exact ⟨rfl, hsem⟩
        · intro k hk t2 ht2
          simp only [hstore, List.length_nil] at ht2
          rw [getq_set_ne s.thrs i k _ (fun hik => hk hik.symm)] at ht2
          rcases hpcs t2 (List.getElem?_mem ht2) with hm | hm
          · exact Or.inl hm
          · exact Or.inr (Or.inl hm)
    · -- phase 1
      obtain ⟨hjobs, hstore, hfs, hlog, oi, ow, hoi, hopc, hoth⟩ := h1
      by_cases hio : i = oi
      · subst hio
        have hto : t = ow := by
          rw [hg] at hoi
          injection hoi
        subst hto
        rcases hopc with ⟨hpc, hsem⟩ | ⟨hpc, hsem⟩
        · -- owner tryAcq: acquires the slot
          have hslt : s.sem < ctx.cap := by rw [hsem]; omega
          have hstep : step ctx s i =
              { s with thrs := s.thrs.set i { t with pc := .syncRes 0 }, sem := s.sem + 1 } := by
            simp [step, hg, hpc, hslt]
          rw [hstep]
          try simp only [setPC]
          refine ⟨uniform_set r w s i t _ huni ⟨htr, htw, htok⟩, Or.inr (Or.inl ?_)⟩
          refine ⟨hjobs, hstore, hfs, hlog, i, { t with pc := .syncRes 0 },
            getq_set_self s.thrs i t _ hg, Or.inr ⟨rfl, by rw [hsem]⟩, ?_⟩
          intro k hk t2 ht2
          rw [getq_set_ne s.thrs i k _ (fun hik => hk hik.symm)] at ht2
          exact hoth k hk t2 ht2
        · -- owner syncRes: the resize completes, is written, job closes
          have hstep : step ctx s i =
              { s with
                thrs := s.thrs.set i { t with pc := .syncFin 0 }
                store := s.store.set 0 ⟨true, cachedPathOf ctx t, none⟩
                fs := cachedPathOf ctx t :: s.fs
                writeLog := s.writeLog ++ [(jobKeyOf t, cachedPathOf ctx t)] } := by
            simp [step, hg, hpc, finishResize, htok]
          rw [hstep]
          try simp only [setPC]
          refine ⟨uniform_set r w s i t _ huni ⟨htr, htw, htok⟩, Or.inr (Or.inr (Or.inl ?_))⟩
          refine ⟨hjobs, by rw [hstore, hcp]; rfl, by rw [hcp, hfs], by rw [hlog, hkey, hcp]; rfl,
            by rw [hsem], i, { t with pc := .syncFin 0 },
            getq_set_self s.thrs i t _ hg, rfl, ?_⟩
          intro k hk t2 ht2
          rw [getq_set_ne s.thrs i k _ (fun hik => hk hik.symm)] at ht2
          rcases hoth k hk t2 ht2 with hm | hm | hm
          · exact Or.inl hm
          · exact Or.inr (Or.inl hm)
          · exact Or.inr (Or.inr (Or.inl hm))
      · -- a non-owner thread
        rcases hoth i hio t hg with htpc | htpc | htpc
        · -- entry → lockJobs
          have hnfs : ¬ cachedPathOf ctx t ∈ s.fs := by rw [hcp, hfs]; exact hmiss
          have hstep : step ctx s i = setPC s i t .lockJobs := by
            simp [step, hg, htpc, hwle, hnfs]
          rw [hstep]
          try simp only [setPC]
          refine ⟨uniform_set r w s i t _ huni ⟨htr, htw, htok⟩, Or.inr (Or.inl ?_)⟩
          refine ⟨hjobs, hstore, hfs, hlog, oi, ow, ?_, hopc, ?_⟩
          · show (s.thrs.set i _)[oi]? = some ow
            rw [getq_set_ne s.thrs i oi _ hio]
            exact hoi
          · intro k hk t2 ht2
            by_cases hki : k = i
            · subst hki
              rw [getq_set_self s.thrs k t _ hg] at ht2
              cases ht2
              exact Or.inr (Or.inl rfl)
            · rw [getq_set_ne s.thrs i k _ (fun hik => hki hik.symm)] at ht2
              exact hoth k hk t2 ht2
        · -- lockJobs: finds the registered job, waits
          have hlook : lookupA s.jobs (jobKeyOf t) = some 0 := by
            rw [hjobs, hkey]
            simp [lookupA]
          have hstep : step ctx s i = setPC s i t (.waitJob 0) := by
            simp [step, hg, htpc, hlook]
          rw [hstep]
          try simp only [setPC]
          refine ⟨uniform_set r w s i t _ huni ⟨htr, htw, htok⟩, Or.inr (Or.inl ?_)⟩
          refine ⟨hjobs, hstore, hfs, hlog, oi, ow, ?_, hopc, ?_⟩
          · show (s.thrs.set i _)[oi]? = some ow
            rw [getq_set_ne s.thrs i oi _ hio]
            exact hoi
          · intro k hk t2 ht2
            by_cases hki : k = i
            · subst hki
              rw [getq_set_self s.thrs k t _ hg] at ht2
              cases ht2
              exact Or.inr (Or.inr rfl)
            · rw [getq_set_ne s.thrs i k _ (fun hik => hki hik.symm)] at ht2
              exact hoth k hk t2 ht2
        · -- waitJob on an open job: blocked
          have hstep : step ctx s i = s := by
            simp [step, hg, htpc, hstore]
          rw [hstep]
          try simp only [setPC]
          exact ⟨huni, Or.inr (Or.inl ⟨hjobs, hstore, hfs, hlog, oi, ow, hoi, hopc, hoth⟩)⟩
    · -- phase 2
      obtain ⟨hjobs, hstore, hfs, hlog, hsem, oi, ow, hoi, hpc, hoth⟩ := h2
      by_cases hio : i = oi
      · subst hio
        have hto : t = ow := by
          rw [hg] at hoi
          injection hoi
        subst hto
        -- owner syncFin: releases the slot and returns the derivative path
        have hstep : step ctx s i =
            { s with
              thrs := s.thrs.set i
                { t with pc := .ret (some (cachedPathOf ctx t, none)) }
              sem := s.sem - 1 } := by
          simp [step, hg, hpc, htok]
        rw [hstep]
        try simp only [setPC]
        refine ⟨uniform_set r w s i t _ huni ⟨htr, htw, htok⟩, Or.inr (Or.inr (Or.inr ?_))⟩
        refine ⟨hjobs, hstore, hfs, hlog, by rw [hsem], ?_⟩
        intro t2 ht2
        obtain ⟨k, hk⟩ := (getq_mem_iff _ t2).mp ht2
        by_cases hki : k = i
        · subst hki
          rw [getq_set_self s.thrs k t _ hg] at hk
          cases hk
          show postRes _ (PPC.ret (some (cachedPathOf ctx t, none)))
          rw [hcp]
          exact Or.inr (Or.inr (Or.inr rfl))
        · rw [getq_set_ne s.thrs i k _ (fun hik => hki hik.symm)] at hk
          exact hoth k hki t2 hk
      · -- a non-owner thread in phase 2
        rcases hoth i hio t hg with htpc | htpc | htpc | htpc
        · -- entry: the derivative now exists, return it
          have hyfs : cachedPathOf ctx t ∈ s.fs := by
            rw [hcp, hfs]
            exact List.mem_cons_self _ _
          have hstep : step ctx s i =
              setPC s i t (.ret (some (cachedPathOf ctx t, none))) := by
            simp [step, hg, htpc, hwle, hyfs]
          rw [hstep]
          try simp only [setPC]
          refine ⟨uniform_set r w s i t _ huni ⟨htr, htw, htok⟩, Or.inr (Or.inr (Or.inl ?_))⟩
          refine ⟨hjobs, hstore, hfs, hlog, hsem, oi, ow, ?_, hpc, ?_⟩
          · show (s.thrs.set i _)[oi]? = some ow
            rw [getq_set_ne s.thrs i oi _ hio]
            exact hoi
          · intro k hk t2 ht2
            by_cases hki : k = i
            · subst hki
              rw [getq_set_self s.thrs k t _ hg] at ht2
              cases ht2
              show postRes _ (PPC.ret (some (cachedPathOf ctx t, none)))
              rw [hcp]
              exact Or.inr (Or.inr (Or.inr rfl))
            · rw [getq_set_ne s.thrs i k _ (fun hik => hki hik.symm)] at ht2
              exact hoth k hk t2 ht2
        · -- lockJobs: the job is still registered, wait on it
          have hlook : lookupA s.jobs (jobKeyOf t) = some 0 := by
            rw [hjobs, hkey]
            simp [lookupA]
          have hstep : step ctx s i = setPC s i t (.waitJob 0) := by
            simp [step, hg, htpc, hlook]
          rw [hstep]
          try simp only [setPC]
          refine ⟨uniform_set r w s i t _ huni ⟨htr, htw, htok⟩, Or.inr (Or.inr (Or.inl ?_))⟩
          refine ⟨hjobs, hstore, hfs, hlog, hsem, oi, ow, ?_, hpc, ?_⟩
          · show (s.thrs.set i _)[oi]? = some ow
            rw [getq_set_ne s.thrs i oi _ hio]
            exact hoi
          · intro k hk t2 ht2
            by_cases hki : k = i
            · subst hki
              rw [getq_set_self s.thrs k t _ hg] at ht2
              cases ht2
              exact Or.inr (Or.inr (Or.inl rfl))
            · rw [getq_set_ne s.thrs i k _ (fun hik => hki hik.symm)] at ht2
              exact hoth k hk t2 ht2
        · -- waitJob: the job is closed, take its result
          have hstep : step ctx s i =
              setPC s i t (.ret (some (cachedPathOf ctx (mkThread r w true), none))) := by
            simp [step, hg, htpc, hstore]
          rw [hstep]
          try simp only [setPC]
          refine ⟨uniform_set r w s i t _ huni ⟨htr, htw, htok⟩, Or.inr (Or.inr (Or.inl ?_))⟩
          refine ⟨hjobs, hstore, hfs, hlog, hsem, oi, ow, ?_, hpc, ?_⟩
          · show (s.thrs.set i _)[oi]? = some ow
            rw [getq_set_ne s.thrs i oi _ hio]
            exact hoi
          · intro k hk t2 ht2
            by_cases hki : k = i
            · subst hki
              rw [getq_set_self s.thrs k t _ hg] at ht2
              cases ht2
              exact Or.inr (Or.inr (Or.inr rfl))
            · rw [getq_set_ne s.thrs i k _ (fun hik => hki hik.symm)] at ht2
              exact hoth k hk t2 ht2
        · -- already returned: no-op
          have hstep : step ctx s i = s := by
            simp [step, hg, htpc]
          rw [hstep]
          try simp only [setPC]
          exact ⟨huni, Or.inr (Or.inr (Or.inl ⟨hjobs, hstore, hfs, hlog, hsem, oi, ow, hoi, hpc, hoth⟩))⟩
    · -- phase 3
      obtain ⟨hjobs, hstore, hfs, hlog, hsem, hpcs⟩ := h3
      have hmembers : ∀ pcn, postRes (cachedPathOf ctx (mkThread r w true)) pcn →
          ∀ t2 ∈ s.thrs.set i { t with pc := pcn },
            postRes (cachedPathOf ctx (mkThread r w true)) t2.pc := by
        intro pcn hpcn t2 ht2
        obtain ⟨k, hk⟩ := (getq_mem_iff _ t2).mp ht2
        by_cases hki : k = i
        · subst hki
          rw [getq_set_self s.thrs k t _ hg] at hk
          cases hk
          exact hpcn
        · rw [getq_set_ne s.thrs i k _ (fun hik => hki hik.symm)] at hk
          exact hpcs t2 (List.getElem?_mem hk)
      rcases hpcs t htm with htpc | htpc | htpc | htpc
      · -- entry: derivative on disk, return it
        have hyfs : cachedPathOf ctx t ∈ s.fs := by
          rw [hcp, hfs]
          exact List.mem_cons_self _ _
        have hstep : step ctx s i =
            setPC s i t (.ret (some (cachedPathOf ctx t, none))) := by
          simp [step, hg, htpc, hwle, hyfs]
        rw [hstep]
        try simp only [setPC]
        refine ⟨uniform_set r w s i t _ huni ⟨htr, htw, htok⟩, Or.inr (Or.inr (Or.inr ?_))⟩
        refine ⟨hjobs, hstore, hfs, hlog, hsem, ?_⟩
        apply hmembers
        rw [hcp]
        exact Or.inr (Or.inr (Or.inr rfl))
      · -- lockJobs: the job is still registered, wait
        have hlook : lookupA s.jobs (jobKeyOf t) = some 0 := by
          rw [hjobs, hkey]
          simp [lookupA]
        have hstep : step ctx s i = setPC s i t (.waitJob 0) := by
          simp [step, hg, htpc, hlook]
        rw [hstep]
        try simp only [setPC]
        refine ⟨uniform_set r w s i t _ huni ⟨htr, htw, htok⟩, Or.inr (Or.inr (Or.inr ?_))⟩
        refine ⟨hjobs, hstore, hfs, hlog, hsem, ?_⟩
        exact hmembers _ (Or.inr (Or.inr (Or.inl rfl)))
      · -- waitJob: job closed, take its result
        have hstep : step ctx s i =
            setPC s i t (.ret (some (cachedPathOf ctx (mkThread r w true), none))) := by
          simp [step, hg, htpc, hstore]
        rw [hstep]
        try simp only [setPC]
        refine ⟨uniform_set r w s i t _ huni ⟨htr, htw, htok⟩, Or.inr (Or.inr (Or.inr ?_))⟩
        refine ⟨hjobs, hstore, hfs, hlog, hsem, ?_⟩
        exact hmembers _ (Or.inr (Or.inr (Or.inr rfl)))
      · -- returned: no-op
        have hstep : step ctx s i = s := by
          simp [step, hg, htpc]
        rw [hstep]
        try simp only [setPC]
        exact ⟨huni, Or.inr (Or.inr (Or.inr ⟨hjobs, hstore, hfs, hlog, hsem, hpcs⟩))⟩


theorem phi_init (ctx : PCtx) (r : Str) (w : Int) (fs0 : List Str) (nThreads : Nat) :
    phi ctx r w fs0 (sameKeyInit r w fs0 nThreads) := by
  constructor
  · intro t ht
    have := List.eq_of_mem_replicate ht
    subst this
    exact ⟨rfl, rfl, rfl⟩
  · left
    refine ⟨rfl, rfl, rfl, rfl, rfl, ?_⟩
    intro t ht
    have := List.eq_of_mem_replicate ht
    subst this
    exact Or.inl rfl

theorem phi_run (ctx : PCtx) (r : Str) (w : Int) (fs0 : List Str) (s : PState)
    (sched : List Nat) (hcap : 1 ≤ ctx.cap) (hw : 0 < w)
    (hmiss : ¬ cachedPathOf ctx (mkThread r w true) ∈ fs0)
    (h : phi ctx r w fs0 s) : phi ctx r w fs0 (run ctx s sched) := by
  induction sched generalizing s with
  | nil => exact h
  | cons i rest ih => exact ih (step ctx s i) (phi_step ctx r w fs0 s i hcap hw hmiss h)

theorem step_thrs_len (ctx : PCtx) (s : PState) (i : Nat) :
    s.thrs.length ≤ (step ctx s i).thrs.length := by
  cases hg : s.thrs[i]? with
  | none => simp [step, hg]
  | some t =>
    rcases t with ⟨tr, tw, tok, tpc⟩
    cases tpc <;> simp only [step, hg, finishResize, setPC] <;>
      (try split) <;> (try split) <;> simp

theorem run_thrs_len (ctx : PCtx) (s : PState) (sched : List Nat) :
    s.thrs.length ≤ (run ctx s sched).thrs.length := by
  induction sched generalizing s with
  | nil => exact Nat.le_refl _
  | cons i rest ih => exact Nat.le_trans (step_thrs_len ctx s i) (ih (step ctx s i))

/-- In a same-key scenario state, a thread that has returned implies the
resize completed, and it returned the derivative path with no error. -/
theorem phi_ret_shape (ctx : PCtx) (r : Str) (w : Int) (fs0 : List Str) (s : PState)
    (h : phi ctx r w fs0 s) (t : PThread) (ht : t ∈ s.thrs) (res : Option (Str × Option PErr))
    (hret : t.pc = .ret res) :
    res = some (cachedPathOf ctx (mkThread r w true), none) ∧
      s.store = [⟨true, cachedPathOf ctx (mkThread r w true), none⟩] ∧
      s.writeLog = [(jobKeyOf (mkThread r w true), cachedPathOf ctx (mkThread r w true))] := by
  obtain ⟨huni, hphase⟩ := h
  rcases hphase with h0 | h1 | h2 | h3
  · obtain ⟨_, _, _, _, _, hpcs⟩ := h0
    rcases hpcs t ht with hm | hm <;> rw [hret] at hm <;> cases hm
  · obtain ⟨_, _, _, _, oi, ow, hoi, hopc, hoth⟩ := h1
    obtain ⟨k, hk⟩ := (getq_mem_iff _ t).mp ht
    by_cases hki : k = oi
    · subst hki
      rw [hoi] at hk
      cases hk
      rcases hopc with ⟨hm, _⟩ | ⟨hm, _⟩ <;> rw [hret] at hm <;> cases hm
    · rcases hoth k hki t hk with hm | hm | hm <;> rw [hret] at hm <;> cases hm
  · obtain ⟨_, hstore, _, hlog, _, oi, ow, hoi, hpc, hoth⟩ := h2
    obtain ⟨k, hk⟩ := (getq_mem_iff _ t).mp ht
    by_cases hki : k = oi
    · subst hki
      rw [hoi] at hk
      cases hk
      rw [hret] at hpc
      cases hpc
    · rcases hoth k hki t hk with hm | hm | hm | hm <;> rw [hret] at hm
      · cases hm
      · cases hm
      · cases hm
      · cases hm
        exact ⟨rfl, hstore, hlog⟩
  · obtain ⟨_, hstore, _, hlog, _, hpcs⟩ := h3
    rcases hpcs t ht with hm | hm | hm | hm <;> rw [hret] at hm
    · cases hm
    · cases hm
    · cases hm
    · cases hm
      exact ⟨rfl, hstore, hlog⟩

/-- In a same-key scenario state where every thread has returned (and there
is at least one), exactly one derivative write happened and every caller
returned the derivative path with no error. -/
theorem phi_allDone (ctx : PCtx) (r : Str) (w : Int) (fs0 : List Str) (s : PState)
    (h : phi ctx r w fs0 s) (hne : ¬ s.thrs = []) (hdone : allDone s = true) :
    s.writeLog = [(jobKeyOf (mkThread r w true), cachedPathOf ctx (mkThread r w true))] ∧
      ∀ t ∈ s.thrs, t.pc = .ret (some (cachedPathOf ctx (mkThread r w true), none)) := by
  have hall : ∀ t ∈ s.thrs, isRet t = true := by
    intro t ht
    exact List.all_eq_true.mp hdone t ht
  obtain ⟨t0, ht0⟩ : ∃ t0, t0 ∈ s.thrs := by
    cases hthrs : s.thrs with
    | nil => exact absurd hthrs hne
    | cons a l => exact ⟨a, List.mem_cons_self a l⟩
  obtain ⟨res0, hres0⟩ : ∃ res, t0.pc = .ret res := by
    have := hall t0 ht0
    cases hpc : t0.pc <;> simp [isRet, hpc] at this ⊢
  obtain ⟨_, _, hlog⟩ := phi_ret_shape ctx r w fs0 s h t0 ht0 res0 hres0
  refine ⟨hlog, ?_⟩
  intro t ht
  obtain ⟨res, hres⟩ : ∃ res, t.pc = .ret res := by
    have := hall t ht
    cases hpc : t.pc <;> simp [isRet, hpc] at this ⊢
  obtain ⟨hshape, _, _⟩ := phi_ret_shape ctx r w fs0 s h t ht res hres
  rw [hres, hshape]

/-! ## The global de-duplication invariant (towards C1) -/


theorem countP_set_same {α : Type} (p : α → Bool) (l : List α) (i : Nat) (a x : α)
    (h : l[i]? = some a) (hpp : p a = p x) : (l.set i x).countP p = l.countP p := by
  have hb := countP_set_balance p l i a x h
  rw [hpp] at hb
  omega

theorem countP_set_res {α : Type} (p : α → Bool) (l : List α) (i : Nat) (a x : α)
    (h : l[i]? = some a) (hx : p x = false) :
    (l.set i x).countP p + (if p a then 1 else 0) = l.countP p := by
  have hb := countP_set_balance p l i a x h
  rw [hx] at hb
  simpa using hb

theorem lookupA_cons_self {α : Type} (l : List (Str × α)) (k : Str) (v : α) :
    lookupA ((k, v) :: l) k = some v := by
  simp [lookupA]

theorem lookupA_cons_ne {α : Type} (l : List (Str × α)) (k k2 : Str) (v : α)
    (h : ¬ k = k2) : lookupA ((k, v) :: l) k2 = lookupA l k2 := by
  simp [lookupA, h]

theorem lookupA_erase_self (l : List (Str × Nat)) (k : Str) :
    lookupA (eraseA l k) k = none := by
  induction l with
  | nil => rfl
  | cons kv rest ih =>
    by_cases hk : kv.1 = k
    · simpa [eraseA, hk] using ih
    · simpa [eraseA, lookupA, hk] using ih

theorem lookupA_erase_ne (l : List (Str × Nat)) (k k2 : Str) (h : ¬ k = k2) :
    lookupA (eraseA l k) k2 = lookupA l k2 := by
  induction l with
  | nil => rfl
  | cons kv rest ih =>
    by_cases hk : kv.1 = k
    · simpa [eraseA, lookupA, hk, h] using ih
    · by_cases h2 : kv.1 = k2
      · have h2k : ¬ k2 = k := fun hh => h (hh.symm ▸ rfl)
        simp [eraseA, lookupA, hk, h2, h2k]
      · simpa [eraseA, lookupA, hk, h2] using ih

theorem ownerFor_count_pos (s : PState) (i : Nat) (t : PThread) (k : Str)
    (hg : s.thrs[i]? = some t) (ho : ownerFor k t = true) :
    1 ≤ s.thrs.countP (ownerFor k) := by
  have : 0 < s.thrs.countP (ownerFor k) :=
    List.countP_pos_iff.mpr ⟨t, List.getElem?_mem hg, ho⟩
  omega

theorem dedupInv_of_pc_same (s : PState) (i : Nat) (t : PThread) (pc2 : PPC) (snew : PState)
    (hg : s.thrs[i]? = some t)
    (hthrs : snew.thrs = s.thrs.set i { t with pc := pc2 })
    (hjobs : snew.jobs = s.jobs)
    (hpc : ∀ k, ownerFor k t = ownerFor k { t with pc := pc2 })
    (h : dedupInv s) : dedupInv snew := by
  intro k
  obtain ⟨h1, h2⟩ := h k
  rw [hthrs, hjobs, countP_set_same (ownerFor k) s.thrs i t _ hg (hpc k)]
  exact ⟨h1, h2⟩

theorem jobKeyOf_set_pc (t : PThread) (o : Bool) (pc : PPC) :
    jobKeyOf { relPath := t.relPath, width := t.width, ok := o, pc := pc } = jobKeyOf t := rfl

theorem dedup_step (ctx : PCtx) (s : PState) (i : Nat) (h : dedupInv s) :
    dedupInv (step ctx s i) := by
  cases hg : s.thrs[i]? with
  | none =>
    have hstep : step ctx s i = s := by simp [step, hg]
    rw [hstep]
    exact h
  | some t =>
    cases htpc : t.pc with
    | entry =>
      by_cases hw0 : t.width ≤ 0
      · have hstep : step ctx s i = setPC s i t (.ret (some (srcPathOf ctx t, none))) := by
          simp [step, hg, htpc, hw0]
        rw [hstep]
        exact dedupInv_of_pc_same s i t _ _ hg rfl rfl
          (fun k => by simp [ownerFor, jobKeyOf, htpc]) h
      · by_cases hfs : cachedPathOf ctx t ∈ s.fs
        · have hstep : step ctx s i =
              setPC s i t (.ret (some (cachedPathOf ctx t, none))) := by
            simp [step, hg, htpc, hw0, hfs]
          rw [hstep]
          exact dedupInv_of_pc_same s i t _ _ hg rfl rfl
            (fun k => by simp [ownerFor, jobKeyOf, htpc]) h
        · have hstep : step ctx s i = setPC s i t .lockJobs := by
            simp [step, hg, htpc, hw0, hfs]
          rw [hstep]
          exact dedupInv_of_pc_same s i t _ _ hg rfl rfl
            (fun k => by simp [ownerFor, jobKeyOf, htpc]) h
    | lockJobs =>
      cases hlook : lookupA s.jobs (jobKeyOf t) with
      | some j =>
        have hstep : step ctx s i = setPC s i t (.waitJob j) := by
          simp [step, hg, htpc, hlook]
        rw [hstep]
        exact dedupInv_of_pc_same s i t _ _ hg rfl rfl
          (fun k => by simp [ownerFor, jobKeyOf, htpc]) h
      | none =>
        have hstep : step ctx s i =
            { s with
              thrs := s.thrs.set i { t with pc := .tryAcq s.store.length }
              jobs := (jobKeyOf t, s.store.length) :: s.jobs
              store := s.store ++ [⟨false, [], none⟩] } := by
          simp [step, hg, htpc, hlook]
        rw [hstep]
        intro k
        dsimp only
        obtain ⟨h1, h2⟩ := h k
        have hbal := countP_set_balance (ownerFor k) s.thrs i t
          { t with pc := .tryAcq s.store.length } hg
        have hold : ownerFor k t = false := by simp [ownerFor, htpc]
        rw [hold] at hbal
        by_cases hk : jobKeyOf t = k
        · have hzero : s.thrs.countP (ownerFor k) = 0 := h2 (hk ▸ hlook)
          have hnew : ownerFor k { t with pc := .tryAcq s.store.length } = true := by
            simp [ownerFor, jobKeyOf_set_pc, hk]
          rw [hnew, hzero] at hbal
          simp at hbal
          refine ⟨by omega, ?_⟩
          intro hlk
          rw [show ((jobKeyOf t, s.store.length) :: s.jobs : List (Str × Nat)) =
            ((k, s.store.length) :: s.jobs) by rw [hk], lookupA_cons_self] at hlk
          cases hlk
        · have hnew : ownerFor k { t with pc := .tryAcq s.store.length } = false := by
            simp [ownerFor, jobKeyOf_set_pc, hk]
          rw [hnew] at hbal
          simp at hbal
          refine ⟨by omega, ?_⟩
          intro hlk
          rw [lookupA_cons_ne _ _ _ _ hk] at hlk
          have := h2 hlk
          omega
    | waitJob j =>
      cases hjb : s.store[j]? with
      | some jb =>
        by_cases hd : jb.done = true
        · have hstep : step ctx s i = setPC s i t (.ret (some (jb.path, jb.error))) := by
            simp [step, hg, htpc, hjb, hd]
          rw [hstep]
          exact dedupInv_of_pc_same s i t _ _ hg rfl rfl
            (fun k => by simp [ownerFor, jobKeyOf, htpc]) h
        · have hstep : step ctx s i = s := by simp [step, hg, htpc, hjb, hd]
          rw [hstep]
          exact h
      | none =>
        have hstep : step ctx s i = s := by simp [step, hg, htpc, hjb]
        rw [hstep]
        exact h
    | tryAcq j =>
      by_cases hs : s.sem < ctx.cap
      · have hstep : step ctx s i =
            { s with thrs := s.thrs.set i { t with pc := .syncRes j }, sem := s.sem + 1 } := by
          simp [step, hg, htpc, hs]
        rw [hstep]
        intro k
        dsimp only
        obtain ⟨h1, h2⟩ := h k
        have heq : (s.thrs.set i { t with pc := .syncRes j }).countP (ownerFor k) =
            s.thrs.countP (ownerFor k) :=
          countP_set_same (ownerFor k) s.thrs i t _ hg
            (by simp [ownerFor, jobKeyOf, htpc])
        rw [heq]
        exact ⟨h1, h2⟩
      · have hstep : step ctx s i =
            { s with
              thrs := (s.thrs.set i { t with pc := .ret (some (srcPathOf ctx t, some .busy)) })
                ++ [{ t with pc := .bgAcq j }] } := by
          simp [step, hg, htpc, hs]
        rw [hstep]
        intro k
        dsimp only
        obtain ⟨h1, h2⟩ := h k
        have hnew : ownerFor k { t with pc := .ret (some (srcPathOf ctx t, some .busy)) } = false := by
          simp [ownerFor]
        have hbal := countP_set_res (ownerFor k) s.thrs i t
          { t with pc := .ret (some (srcPathOf ctx t, some .busy)) } hg hnew
        have hbg : ownerFor k { t with pc := .bgAcq j } = ownerFor k t := by
          simp [ownerFor, jobKeyOf, htpc]
        simp only [List.countP_append, List.countP_cons, List.countP_nil, hbg]
        generalize hb : (if ownerFor k t = true then (1 : Nat) else 0) = b at hbal ⊢
        constructor
        · omega
        · intro hlk
          have := h2 hlk
          omega
    | syncRes j =>
      cases hok : t.ok with
      | true =>
        have hstep : step ctx s i =
            { s with
              thrs := s.thrs.set i { t with pc := .syncFin j }
              store := s.store.set j ⟨true, cachedPathOf ctx t, none⟩
              fs := cachedPathOf ctx t :: s.fs
              writeLog := s.writeLog ++ [(jobKeyOf t, cachedPathOf ctx t)] } := by
          simp [step, hg, htpc, finishResize, hok]
        rw [hstep]
        intro k
        dsimp only
        obtain ⟨h1, h2⟩ := h k
        have heq : (s.thrs.set i { t with pc := .syncFin j }).countP (ownerFor k) =
            s.thrs.countP (ownerFor k) :=
          countP_set_same (ownerFor k) s.thrs i t _ hg
            (by simp [ownerFor, jobKeyOf, htpc])
        rw [heq]
        exact ⟨h1, h2⟩
      | false =>
        have hstep : step ctx s i =
            { s with
              thrs := s.thrs.set i { t with pc := .syncFin j }
              store := s.store.set j ⟨true, [], some .rfail⟩ } := by
          simp [step, hg, htpc, finishResize, hok]
        rw [hstep]
        intro k
        dsimp only
        obtain ⟨h1, h2⟩ := h k
        have heq : (s.thrs.set i { t with pc := .syncFin j }).countP (ownerFor k) =
            s.thrs.countP (ownerFor k) :=
          countP_set_same (ownerFor k) s.thrs i t _ hg
            (by simp [ownerFor, jobKeyOf, htpc])
        rw [heq]
        exact ⟨h1, h2⟩
    | syncFin j =>
      have hstep : step ctx s i =
          { s with
            thrs := s.thrs.set i
              { t with pc := .ret (some (if t.ok = true then (cachedPathOf ctx t, none)
                                         else (srcPathOf ctx t, some .rfail))) }
            sem := s.sem - 1 } := by
        simp [step, hg, htpc]
      rw [hstep]
      intro k
      dsimp only
      obtain ⟨h1, h2⟩ := h k
      have hbal := countP_set_balance (ownerFor k) s.thrs i t
        { t with pc := .ret (some (if t.ok = true then (cachedPathOf ctx t, none)
                                   else (srcPathOf ctx t, some .rfail))) } hg
      have hnew : ownerFor k { t with pc := .ret (some (if t.ok = true then (cachedPathOf ctx t, none)
                                   else (srcPathOf ctx t, some .rfail))) } = false := by
        simp [ownerFor]
      rw [hnew] at hbal
      cases ho : ownerFor k t <;> rw [ho] at hbal <;> simp at hbal <;>
        refine ⟨by omega, fun hlk => ?_⟩ <;> have := h2 hlk <;> omega
    | bgAcq j =>
      by_cases hs : s.sem < ctx.cap
      · have hstep : step ctx s i =
            { s with thrs := s.thrs.set i { t with pc := .bgRes j }, sem := s.sem + 1 } := by
          simp [step, hg, htpc, hs]
        rw [hstep]
        intro k
        dsimp only
        obtain ⟨h1, h2⟩ := h k
        have heq : (s.thrs.set i { t with pc := .bgRes j }).countP (ownerFor k) =
            s.thrs.countP (ownerFor k) :=
          countP_set_same (ownerFor k) s.thrs i t _ hg
            (by simp [ownerFor, jobKeyOf, htpc])
        rw [heq]
        exact ⟨h1, h2⟩
      · have hstep : step ctx s i = s := by simp [step, hg, htpc, hs]
        rw [hstep]
        exact h
    | bgRes j =>
      cases hok : t.ok with
      | true =>
        have hstep : step ctx s i =
            { s with
              thrs := s.thrs.set i { t with pc := .bgFin j }
              store := s.store.set j ⟨true, cachedPathOf ctx t, none⟩
              fs := cachedPathOf ctx t :: s.fs
              writeLog := s.writeLog ++ [(jobKeyOf t, cachedPathOf ctx t)] } := by
          simp [step, hg, htpc, finishResize, hok]
        rw [hstep]
        intro k
        dsimp only
        obtain ⟨h1, h2⟩ := h k
        have heq : (s.thrs.set i { t with pc := .bgFin j }).countP (ownerFor k) =
            s.thrs.countP (ownerFor k) :=
          countP_set_same (ownerFor k) s.thrs i t _ hg
            (by simp [ownerFor, jobKeyOf, htpc])
        rw [heq]
        exact ⟨h1, h2⟩
      | false =>
        have hstep : step ctx s i =
            { s with
              thrs := s.thrs.set i { t with pc := .bgFin j }
              store := s.store.set j ⟨true, [], some .rfail⟩ } := by
          simp [step, hg, htpc, finishResize, hok]
        rw [hstep]
        intro k
        dsimp only
        obtain ⟨h1, h2⟩ := h k
        have heq : (s.thrs.set i { t with pc := .bgFin j }).countP (ownerFor k) =
            s.thrs.countP (ownerFor k) :=
          countP_set_same (ownerFor k) s.thrs i t _ hg
            (by simp [ownerFor, jobKeyOf, htpc])
        rw [heq]
        exact ⟨h1, h2⟩
    | bgFin j =>
      have hstep : step ctx s i =
          { s with
            thrs := s.thrs.set i { t with pc := .bgRel j }
            jobs := eraseA s.jobs (jobKeyOf t) } := by
        simp [step, hg, htpc]
      rw [hstep]
      intro k
      dsimp only
      obtain ⟨h1, h2⟩ := h k
      have hbal := countP_set_balance (ownerFor k) s.thrs i t { t with pc := .bgRel j } hg
      have hnew : ownerFor k { t with pc := .bgRel j } = false := by
        simp [ownerFor]
      rw [hnew] at hbal
      by_cases hk : jobKeyOf t = k
      · have hot : ownerFor k t = true := by simp [ownerFor, htpc, hk]
        have hpos := ownerFor_count_pos s i t k hg hot
        rw [hot] at hbal
        simp at hbal
        refine ⟨by omega, fun _ => by omega⟩
      · have hot : ownerFor k t = false := by simp [ownerFor, hk]
        rw [hot] at hbal
        simp at hbal
        refine ⟨by omega, fun hlk => ?_⟩
        rw [lookupA_erase_ne _ _ _ hk] at hlk
        have := h2 hlk
        omega
    | bgRel j =>
      have hstep : step ctx s i =
          { s with thrs := s.thrs.set i { t with pc := .ret none }, sem := s.sem - 1 } := by
        simp [step, hg, htpc]
      rw [hstep]
      intro k
      dsimp only
      obtain ⟨h1, h2⟩ := h k
      have heq : (s.thrs.set i { t with pc := .ret none }).countP (ownerFor k) =
          s.thrs.countP (ownerFor k) :=
        countP_set_same (ownerFor k) s.thrs i t _ hg
          (by simp [ownerFor, jobKeyOf, htpc])
      rw [heq]
      exact ⟨h1, h2⟩
    | ret r =>
      have hstep : step ctx s i = s := by simp [step, hg, htpc]
      rw [hstep]
      exact h


theorem dedup_init (thrs : List PThread) (fs : List Str)
    (hentry : ∀ t ∈ thrs, t.pc = .entry) : dedupInv (cleanInit thrs fs) := by
  intro k
  have hzero : thrs.countP (ownerFor k) = 0 := by
    rw [List.countP_eq_zero]
    intro t ht
    simp [ownerFor, hentry t ht]
  exact ⟨by simp [cleanInit, hzero], fun _ => by simp [cleanInit, hzero]⟩

theorem dedup_run (ctx : PCtx) (s : PState) (sched : List Nat) (h : dedupInv s) :
    dedupInv (run ctx s sched) := by
  induction sched generalizing s with
  | nil => exact h
  | cons i rest ih => exact ih (step ctx s i) (dedup_step ctx s i h)

/-- C1 (counterexample): two concurrent callers whose original paths differ
only in extension case (`d/a.JPG` vs `d/a.jpg`, width 200) hold distinct
keys, resize simultaneously, and both write the same derivative path —
`cache/8277e0910d750195_a_200.jpg` appears twice in the disk-write log. -/
theorem c1_two_writes_same_path :
    (run ⟨"cache".toList, "photos".toList, 2⟩
        (cleanInit [mkThread "d/a.JPG".toList 200 true, mkThread "d/a.jpg".toList 200 true] [])
        [0, 0, 0, 1, 1, 1]).thrs.map (fun t => t.pc) =
      [.syncRes 0, .syncRes 1] ∧
    (run ⟨"cache".toList, "photos".toList, 2⟩
        (cleanInit [mkThread "d/a.JPG".toList 200 true, mkThread "d/a.jpg".toList 200 true] [])
        [0, 0, 0, 1, 1, 1, 0, 1]).writeLog.map (fun e => e.2) =
      ["cache/8277e0910d750195_a_200.jpg".toList, "cache/8277e0910d750195_a_200.jpg".toList] := by
  constructor
  · decide
  · decide


/-- C1 (amended): de-duplication is per key: for any mix of concurrent
callers and any interleaving, at most one resize for a given `(srcRelPath,
width)` key is in progress at any instant; and for `N ≥ 1` same-key callers
with no slot contention (capacity at least 1), any completed run performs
exactly one derivative disk write and every caller returns the same
derivative path with no busy error.  (Distinct keys sharing a derivative
path can still write that path twice — the counterexample.) -/
theorem c1_per_key_dedup :
    (∀ (thrs : List PThread) (fs : List Str) (ctx : PCtx) (sched : List Nat) (k : Str),
      (∀ t ∈ thrs, t.pc = .entry) →
      resizingCount (run ctx (cleanInit thrs fs) sched) k ≤ 1) ∧
    (∀ (ctx : PCtx) (r : Str) (w : Int) (fs0 : List Str) (nT : Nat) (sched : List Nat),
      1 ≤ ctx.cap → 0 < w → ¬ cachedPathOf ctx (mkThread r w true) ∈ fs0 → 1 ≤ nT →
      allDone (run ctx (sameKeyInit r w fs0 nT) sched) = true →
      (run ctx (sameKeyInit r w fs0 nT) sched).writeLog =
        [(jobKeyOf (mkThread r w true), cachedPathOf ctx (mkThread r w true))] ∧
      ∀ t ∈ (run ctx (sameKeyInit r w fs0 nT) sched).thrs,
        t.pc = .ret (some (cachedPathOf ctx (mkThread r w true), none))) := by
  constructor
  · intro thrs fs ctx sched k hentry
    have hinv := dedup_run ctx (cleanInit thrs fs) sched (dedup_init thrs fs hentry)
    have hmono : resizingCount (run ctx (cleanInit thrs fs) sched) k ≤
        (run ctx (cleanInit thrs fs) sched).thrs.countP (ownerFor k) := by
      apply countP_mono_pred
      intro t _ hres
      simp only [resizingFor, Bool.and_eq_true, decide_eq_true_eq] at hres
      obtain ⟨hks, hpc⟩ := hres
      simp only [ownerFor, Bool.and_eq_true, decide_eq_true_eq]
      refine ⟨hks, ?_⟩
      cases hp : t.pc <;> rw [hp] at hpc <;> simp_all
    exact Nat.le_trans hmono (hinv k).1
  · intro ctx r w fs0 nT sched hcap hw hmiss hn hdone
    have hphi := phi_run ctx r w fs0 (sameKeyInit r w fs0 nT) sched hcap hw hmiss
      (phi_init ctx r w fs0 nT)
    have hne : ¬ (run ctx (sameKeyInit r w fs0 nT) sched).thrs = [] := by
      intro hempty
      have hlen := run_thrs_len ctx (sameKeyInit r w fs0 nT) sched
      rw [hempty] at hlen
      simp [sameKeyInit, cleanInit] at hlen
      omega
    exact phi_allDone ctx r w fs0 _ hphi hne hdone

/-- C1 (witness): two same-key callers, capacity 1, a completing schedule —
one write, both callers return the derivative path. -/
theorem c1_per_key_dedup_witness :
    (resizingCount (run ⟨"c".toList, "r".toList, 1⟩
        (cleanInit [mkThread "a.jpg".toList 200 true] []) [0, 0, 0])
        (jobKeyOf (mkThread "a.jpg".toList 200 true)) ≤ 1) ∧
    ((run ⟨"c".toList, "r".toList, 1⟩ (sameKeyInit "a.jpg".toList 200 [] 2)
        [0, 0, 0, 0, 0, 1]).writeLog =
      [(jobKeyOf (mkThread "a.jpg".toList 200 true),
        cachedPathOf ⟨"c".toList, "r".toList, 1⟩ (mkThread "a.jpg".toList 200 true))] ∧
      ∀ t ∈ (run ⟨"c".toList, "r".toList, 1⟩ (sameKeyInit "a.jpg".toList 200 [] 2)
          [0, 0, 0, 0, 0, 1]).thrs,
        t.pc = .ret (some (cachedPathOf ⟨"c".toList, "r".toList, 1⟩
          (mkThread "a.jpg".toList 200 true), none))) :=
  ⟨c1_per_key_dedup.1 [mkThread "a.jpg".toList 200 true] [] ⟨"c".toList, "r".toList, 1⟩
      [0, 0, 0] (jobKeyOf (mkThread "a.jpg".toList 200 true))
      (by intro t ht; simp at ht; rw [ht]; rfl),
   c1_per_key_dedup.2 ⟨"c".toList, "r".toList, 1⟩ "a.jpg".toList 200 [] 2
      [0, 0, 0, 0, 0, 1] (by decide) (by decide) (by simp) (by decide) (by decide)⟩


theorem allDone_absorbing (ctx : PCtx) (s : PState) (h : allDone s = true) :
    absorbing ctx s := by
  intro i
  cases hg : s.thrs[i]? with
  | none => simp [step, hg]
  | some t =>
    have hr := List.all_eq_true.mp h t (List.getElem?_mem hg)
    cases hpc : t.pc <;> simp [isRet, hpc] at hr
    simp [step, hg, hpc]

theorem run_absorbing (ctx : PCtx) (s : PState) (h : absorbing ctx s) (sched : List Nat) :
    run ctx s sched = s := by
  induction sched with
  | nil => rfl
  | cons i rest ih => simp [run, h i] at ih ⊢; exact ih

/-- In a same-key scenario state where every thread has returned (and there
is at least one), the job is still registered in `activeJobs` and closed. -/
theorem phi_allDone_jobs (ctx : PCtx) (r : Str) (w : Int) (fs0 : List Str) (s : PState)
    (h : phi ctx r w fs0 s) (hne : ¬ s.thrs = []) (hdone : allDone s = true) :
    lookupA s.jobs (jobKeyOf (mkThread r w true)) = some 0 ∧
      s.store = [⟨true, cachedPathOf ctx (mkThread r w true), none⟩] := by
  obtain ⟨huni, hphase⟩ := h
  have hall : ∀ t ∈ s.thrs, isRet t = true := fun t ht => List.all_eq_true.mp hdone t ht
  obtain ⟨t0, ht0⟩ : ∃ t0, t0 ∈ s.thrs := by
    cases hthrs : s.thrs with
    | nil => exact absurd hthrs hne
    | cons a l => exact ⟨a, List.mem_cons_self a l⟩
  rcases hphase with h0 | h1 | h2 | h3
  · obtain ⟨_, _, _, _, _, hpcs⟩ := h0
    have := hall t0 ht0
    rcases hpcs t0 ht0 with hm | hm <;> simp [isRet, hm] at this
  · obtain ⟨_, _, _, _, oi, ow, hoi, hopc, _⟩ := h1
    have := hall ow (List.getElem?_mem hoi)
    rcases hopc with ⟨hm, _⟩ | ⟨hm, _⟩ <;> simp [isRet, hm] at this
  · obtain ⟨_, _, _, _, _, oi, ow, hoi, hpc, _⟩ := h2
    have := hall ow (List.getElem?_mem hoi)
    simp [isRet, hpc] at this
  · obtain ⟨hjobs, hstore, _, _, _, _⟩ := h3
    rw [hjobs, hstore]
    exact ⟨lookupA_cons_self _ _ _, rfl⟩

/-- C3 (counterexample): with caller A mid-resize for `a.jpg` at width 200,
caller B for the same key finds the in-flight job and waits on it — its step
makes no progress rather than returning the original with a busy signal —
and once A completes, B returns the job's derivative path with no error. -/
theorem c3_joiner_blocks :
    (run ⟨"c".toList, "r".toList, 1⟩
        (cleanInit [mkThread "a.jpg".toList 200 true, mkThread "a.jpg".toList 200 true] [])
        [0, 0, 0, 1, 1]).thrs.map (fun t => t.pc) = [.syncRes 0, .waitJob 0] ∧
    step ⟨"c".toList, "r".toList, 1⟩
      (run ⟨"c".toList, "r".toList, 1⟩
        (cleanInit [mkThread "a.jpg".toList 200 true, mkThread "a.jpg".toList 200 true] [])
        [0, 0, 0, 1, 1]) 1 =
      run ⟨"c".toList, "r".toList, 1⟩
        (cleanInit [mkThread "a.jpg".toList 200 true, mkThread "a.jpg".toList 200 true] [])
        [0, 0, 0, 1, 1] ∧
    (run ⟨"c".toList, "r".toList, 1⟩
        (cleanInit [mkThread "a.jpg".toList 200 true, mkThread "a.jpg".toList 200 true] [])
        [0, 0, 0, 1, 1, 0, 0, 1]).thrs.map (fun t => t.pc) =
      [.ret (some ("c/5058f1af8388633f_a_200.jpg".toList, none)),
       .ret (some ("c/5058f1af8388633f_a_200.jpg".toList, none))] := by
  refine ⟨by decide, by decide, by decide⟩

/-- C3 (amended): a caller that finds an in-flight job for its key blocks on
`<-job.Done` — its step makes no progress while the job is open — and, in a
same-key scenario, a caller returns only with the completed job's derivative
path and no error; it never returns early with the original path and a busy
signal. -/
theorem c3_joiner_waits_for_job :
    (∀ (ctx : PCtx) (s : PState) (i : Nat) (t : PThread) (j : Nat) (jb : PJob),
      s.thrs[i]? = some t → t.pc = .waitJob j → s.store[j]? = some jb →
      jb.done = false → step ctx s i = s) ∧
    (∀ (ctx : PCtx) (r : Str) (w : Int) (fs0 : List Str) (nT : Nat) (sched : List Nat)
      (t : PThread) (res : Option (Str × Option PErr)),
      1 ≤ ctx.cap → 0 < w → ¬ cachedPathOf ctx (mkThread r w true) ∈ fs0 →
      t ∈ (run ctx (sameKeyInit r w fs0 nT) sched).thrs → t.pc = .ret res →
      res = some (cachedPathOf ctx (mkThread r w true), none) ∧
        (run ctx (sameKeyInit r w fs0 nT) sched).store =
          [⟨true, cachedPathOf ctx (mkThread r w true), none⟩]) := by
  constructor
  · intro ctx s i t j jb hg htpc hjb hd
    simp [step, hg, htpc, hjb, hd]
  · intro ctx r w fs0 nT sched t res hcap hw hmiss ht hret
    have hphi := phi_run ctx r w fs0 (sameKeyInit r w fs0 nT) sched hcap hw hmiss
      (phi_init ctx r w fs0 nT)
    obtain ⟨h1, h2, _⟩ := phi_ret_shape ctx r w fs0 _ hphi t ht res hret
    exact ⟨h1, h2⟩

/-- C3 (witness): the blocking conjunct at an explicit open job, and the
result-shape conjunct at a completed one-caller run. -/
theorem c3_joiner_waits_for_job_witness :
    step ⟨"c".toList, "r".toList, 1⟩
      ⟨[⟨"a.jpg".toList, 200, true, .waitJob 0⟩], [("a.jpg_200".toList, 0)],
        [⟨false, [], none⟩], 1, [], []⟩ 0 =
      ⟨[⟨"a.jpg".toList, 200, true, .waitJob 0⟩], [("a.jpg_200".toList, 0)],
        [⟨false, [], none⟩], 1, [], []⟩ ∧
    ((run ⟨"c".toList, "r".toList, 1⟩ (sameKeyInit "a.jpg".toList 200 [] 1)
        [0, 0, 0, 0, 0]).thrs[0]?.map (fun t => t.pc) =
      some (.ret (some (cachedPathOf ⟨"c".toList, "r".toList, 1⟩
        (mkThread "a.jpg".toList 200 true), none)))) := by
  constructor
  · exact c3_joiner_waits_for_job.1 ⟨"c".toList, "r".toList, 1⟩
      ⟨[⟨"a.jpg".toList, 200, true, .waitJob 0⟩], [("a.jpg_200".toList, 0)],
        [⟨false, [], none⟩], 1, [], []⟩ 0
      ⟨"a.jpg".toList, 200, true, .waitJob 0⟩ 0 ⟨false, [], none⟩
      (by decide) (by decide) (by decide) (by decide)
  · have hm : (⟨"a.jpg".toList, 200, true,
        .ret (some (cachedPathOf ⟨"c".toList, "r".toList, 1⟩
          (mkThread "a.jpg".toList 200 true), none))⟩ : PThread) ∈
        (run ⟨"c".toList, "r".toList, 1⟩ (sameKeyInit "a.jpg".toList 200 [] 1)
          [0, 0, 0, 0, 0]).thrs := by
      decide
    have := c3_joiner_waits_for_job.2 ⟨"c".toList, "r".toList, 1⟩ "a.jpg".toList 200 [] 1
      [0, 0, 0, 0, 0] _ _ (by decide) (by decide) (by decide) hm rfl
    decide


/-- C4 (counterexample): a single caller resizes synchronously and returns;
the completed job stays in `activeJobs` and the state is absorbing — no
later step ever removes it. -/
theorem c4_sync_job_never_removed :
    lookupA (run ⟨"c".toList, "r".toList, 1⟩ (sameKeyInit "a.jpg".toList 200 [] 1)
        [0, 0, 0, 0, 0]).jobs ("a.jpg_200".toList) = some 0 ∧
    (run ⟨"c".toList, "r".toList, 1⟩ (sameKeyInit "a.jpg".toList 200 [] 1)
        [0, 0, 0, 0, 0]).store =
      [⟨true, "c/5058f1af8388633f_a_200.jpg".toList, none⟩] ∧
    allDone (run ⟨"c".toList, "r".toList, 1⟩ (sameKeyInit "a.jpg".toList 200 [] 1)
        [0, 0, 0, 0, 0]) = true ∧
    absorbing ⟨"c".toList, "r".toList, 1⟩
      (run ⟨"c".toList, "r".toList, 1⟩ (sameKeyInit "a.jpg".toList 200 [] 1)
        [0, 0, 0, 0, 0]) := by
  refine ⟨by decide, by decide, by decide, ?_⟩
  exact allDone_absorbing _ _ (by decide)

/-- C4 (amended): only background jobs are removed from `activeJobs` — the
`bgFin` step deletes the key immediately after completion; a job resized
synchronously is never removed: when a same-key run completes, the closed
job is still registered and the state is absorbing. -/
theorem c4_only_bg_jobs_removed :
    (∀ (ctx : PCtx) (s : PState) (i : Nat) (t : PThread) (j : Nat),
      s.thrs[i]? = some t → t.pc = .bgFin j →
      lookupA (step ctx s i).jobs (jobKeyOf t) = none) ∧
    (∀ (ctx : PCtx) (r : Str) (w : Int) (fs0 : List Str) (nT : Nat) (sched : List Nat),
      1 ≤ ctx.cap → 0 < w → ¬ cachedPathOf ctx (mkThread r w true) ∈ fs0 → 1 ≤ nT →
      allDone (run ctx (sameKeyInit r w fs0 nT) sched) = true →
      lookupA (run ctx (sameKeyInit r w fs0 nT) sched).jobs
          (jobKeyOf (mkThread r w true)) = some 0 ∧
        (run ctx (sameKeyInit r w fs0 nT) sched).store =
          [⟨true, cachedPathOf ctx (mkThread r w true), none⟩] ∧
        absorbing ctx (run ctx (sameKeyInit r w fs0 nT) sched)) := by
  constructor
  · intro ctx s i t j hg htpc
    have hstep : step ctx s i =
        { s with
          thrs := s.thrs.set i { t with pc := .bgRel j }
          jobs := eraseA s.jobs (jobKeyOf t) } := by
      simp [step, hg, htpc]
    rw [hstep]
    exact lookupA_erase_self s.jobs (jobKeyOf t)
  · intro ctx r w fs0 nT sched hcap hw hmiss hn hdone
    have hphi := phi_run ctx r w fs0 (sameKeyInit r w fs0 nT) sched hcap hw hmiss
      (phi_init ctx r w fs0 nT)
    have hne : ¬ (run ctx (sameKeyInit r w fs0 nT) sched).thrs = [] := by
      intro hempty
      have hlen := run_thrs_len ctx (sameKeyInit r w fs0 nT) sched
      rw [hempty] at hlen
      simp [sameKeyInit, cleanInit] at hlen
      omega
    obtain ⟨hj, hs⟩ := phi_allDone_jobs ctx r w fs0 _ hphi hne hdone
    exact ⟨hj, hs, allDone_absorbing ctx _ hdone⟩

/-- C4 (witness): the background-removal conjunct at an explicit state, and
the sync-persistence conjunct at a completed one-caller run. -/
theorem c4_only_bg_jobs_removed_witness :
    lookupA (step ⟨"c".toList, "r".toList, 1⟩
        ⟨[⟨"a.jpg".toList, 200, true, .bgFin 0⟩], [("a.jpg_200".toList, 0)],
          [⟨true, [], none⟩], 1, [], []⟩ 0).jobs
      (jobKeyOf ⟨"a.jpg".toList, 200, true, .bgFin 0⟩) = none ∧
    lookupA (run ⟨"c".toList, "r".toList, 1⟩ (sameKeyInit "a.jpg".toList 200 [] 1)
        [0, 0, 0, 0, 0]).jobs (jobKeyOf (mkThread "a.jpg".toList 200 true)) = some 0 := by
  constructor
  · exact c4_only_bg_jobs_removed.1 ⟨"c".toList, "r".toList, 1⟩
      ⟨[⟨"a.jpg".toList, 200, true, .bgFin 0⟩], [("a.jpg_200".toList, 0)],
        [⟨true, [], none⟩], 1, [], []⟩ 0 ⟨"a.jpg".toList, 200, true, .bgFin 0⟩ 0
      (by decide) (by decide)
  · exact (c4_only_bg_jobs_removed.2 ⟨"c".toList, "r".toList, 1⟩ "a.jpg".toList 200 [] 1
      [0, 0, 0, 0, 0] (by decide) (by decide) (by simp) (by decide) (by decide)).1


/-- C5 (counterexample): with the semaphore full and the derivative not
cached, a caller whose key already has a job in flight does not return the
original with a busy error — it blocks on the job instead (its step makes no
progress), so the 429 path is never reached for it. -/
theorem c5_blocked_despite_no_slot :
    (run ⟨"c".toList, "r".toList, 1⟩
        (cleanInit [mkThread "b.png".toList 300 true, mkThread "b.png".toList 300 true] [])
        [0, 0, 0, 1, 1]).sem = 1 ∧
    (run ⟨"c".toList, "r".toList, 1⟩
        (cleanInit [mkThread "b.png".toList 300 true, mkThread "b.png".toList 300 true] [])
        [0, 0, 0, 1, 1]).thrs.map (fun t => t.pc) = [.syncRes 0, .waitJob 0] ∧
    step ⟨"c".toList, "r".toList, 1⟩
      (run ⟨"c".toList, "r".toList, 1⟩
        (cleanInit [mkThread "b.png".toList 300 true, mkThread "b.png".toList 300 true] [])
        [0, 0, 0, 1, 1]) 1 =
      run ⟨"c".toList, "r".toList, 1⟩
        (cleanInit [mkThread "b.png".toList 300 true, mkThread "b.png".toList 300 true] [])
        [0, 0, 0, 1, 1] := by
  refine ⟨by decide, by decide, by decide⟩

/-- C5 (amended): when no slot is free, the derivative is not cached *and no
job is yet registered for the key*, the caller does not block: in three of
its own steps it registers a job, spawns the background worker and returns
the original path with the busy error; and the HTTP handler answers exactly
that busy error with 429 and `Retry-After: 5`. -/
theorem srcPathOf_set_pc (ctx : PCtx) (t : PThread) (o : Bool) (pc : PPC) :
    srcPathOf ctx { relPath := t.relPath, width := t.width, ok := o, pc := pc } =
      srcPathOf ctx t := rfl

theorem c5_busy_fast_path :
    (∀ (ctx : PCtx) (s : PState) (i : Nat) (t : PThread),
      s.thrs[i]? = some t → t.pc = .entry → ¬ t.width ≤ 0 →
      ¬ cachedPathOf ctx t ∈ s.fs → lookupA s.jobs (jobKeyOf t) = none →
      ctx.cap ≤ s.sem →
      (run ctx s [i, i, i]).thrs[i]? =
          some { t with pc := .ret (some (srcPathOf ctx t, some .busy)) } ∧
        lookupA (run ctx s [i, i, i]).jobs (jobKeyOf t) = some s.store.length ∧
        (run ctx s [i, i, i]).thrs.getLast? =
          some { t with pc := .bgAcq s.store.length }) ∧
    (∀ (photoExts : List Str) (watchDir : Str) (relDirOf : Str → Str)
      (process : Str → Int → Str × Option Str) (tail widthStr a b pPath err : Str) (wv : Int),
      goSplitN2 tail = [a, b] → parseWidth widthStr = some wv →
      (photoExts.any (fun ext => goToLower (goExt (goQueryUnescape b)) = ext)) = true →
      process (goJoin (relDirOf a) (goQueryUnescape b)) wv = (pPath, some err) →
      goContains err ("too many concurrent resizes".toList) = true →
      goContains err ("short Huffman data".toList) = false →
      serveImages photoExts watchDir relDirOf process tail widthStr =
        ⟨.tooMany ("5".toList), true⟩) := by
  constructor
  · intro ctx s i t hg htpc hw0 hfs hlook hsem
    have h1 : step ctx s i = setPC s i t .lockJobs := by
      simp [step, hg, htpc, hw0, hfs]
    have hg1 : (s.thrs.set i { t with pc := .lockJobs })[i]? =
        some { t with pc := .lockJobs } :=
      getq_set_self s.thrs i t _ hg
    have h2 : step ctx (setPC s i t .lockJobs) i =
        { s with
          thrs := (s.thrs.set i { t with pc := .lockJobs }).set i
            { t with pc := .tryAcq s.store.length }
          jobs := (jobKeyOf t, s.store.length) :: s.jobs
          store := s.store ++ [⟨false, [], none⟩] } := by
      simp [step, hg1, setPC, hlook, jobKeyOf_set_pc]
    have hg2 : (s.thrs.set i { t with pc := .tryAcq s.store.length })[i]? =
        some { t with pc := .tryAcq s.store.length } :=
      getq_set_self s.thrs i t _ hg
    have hnoslot : ¬ s.sem < ctx.cap := by omega
    have h3 : run ctx s [i, i, i] =
        { s with
          thrs := (s.thrs.set i
              { t with pc := .ret (some (srcPathOf ctx t, some .busy)) })
            ++ [{ t with pc := .bgAcq s.store.length }]
          jobs := (jobKeyOf t, s.store.length) :: s.jobs
          store := s.store ++ [⟨false, [], none⟩] } := by
      show step ctx (step ctx (step ctx s i) i) i = _
      rw [h1, h2]
      simp [step, hg2, hnoslot, jobKeyOf_set_pc, srcPathOf_set_pc]
    rw [h3]
    refine ⟨?_, lookupA_cons_self _ _ _, ?_⟩
    · show (_ ++ [_] : List PThread)[i]? = _
      have hset : (s.thrs.set i
          { t with pc := .ret (some (srcPathOf ctx t, some .busy)) })[i]? =
          some { t with pc := .ret (some (srcPathOf ctx t, some .busy)) } :=
        getq_set_self s.thrs i t _ hg
      have hlen : i < (s.thrs.set i
          { t with pc := .ret (some (srcPathOf ctx t, some .busy)) }).length := by
        by_contra hc
        rw [List.getElem?_eq_none (Nat.le_of_not_lt hc)] at hset
        cases hset
      rw [List.getElem?_append_left hlen]
      exact hset
    · exact List.getLast?_concat _
  · intro photoExts watchDir relDirOf process tail widthStr a b pPath err wv
      hparts hpw hext hpr hbusy hhuff
    simp only [String.toList] at hbusy hhuff
    unfold serveImages
    rw [hparts]
    simp [hpw, hext, hpr, hbusy, hhuff]

/-- C5 (witness): the fast busy path at an explicit zero-capacity state, and
the 429 translation at a concrete request. -/
theorem c5_busy_fast_path_witness :
    ((run ⟨"c".toList, "r".toList, 0⟩
        ⟨[mkThread "b.png".toList 300 true], [], [], 0, [], []⟩ [0, 0, 0]).thrs[0]? =
      some ⟨"b.png".toList, 300, true,
        .ret (some (srcPathOf ⟨"c".toList, "r".toList, 0⟩ (mkThread "b.png".toList 300 true),
          some .busy))⟩) ∧
    serveImages [".jpg".toList] "w".toList (fun _ => "d".toList)
      (fun p _ => (p, some ("too many concurrent resizes".toList)))
      "s/b.jpg".toList "40".toList = ⟨.tooMany ("5".toList), true⟩ := by
  constructor
  · exact (c5_busy_fast_path.1 ⟨"c".toList, "r".toList, 0⟩
      ⟨[mkThread "b.png".toList 300 true], [], [], 0, [], []⟩ 0
      (mkThread "b.png".toList 300 true)
      (by decide) (by decide) (by decide) (by decide) (by decide) (by decide)).1
  · exact c5_busy_fast_path.2 [".jpg".toList] "w".toList (fun _ => "d".toList)
      (fun p _ => (p, some ("too many concurrent resizes".toList)))
      "s/b.jpg".toList "40".toList "s".toList "b.jpg".toList ("d/b.jpg".toList)
      ("too many concurrent resizes".toList) 40
      (by decide) (by decide) (by decide) (by decide) (by decide) (by decide)

/-! ## The rebuild coalescer invariants (towards C7) -/


theorem countP_congr_mem {α : Type} (l : List α) (p q : α → Bool)
    (h : ∀ a ∈ l, p a = q a) : l.countP p = l.countP q := by
  induction l with
  | nil => rfl
  | cons c rest ih =>
    simp [List.countP_cons, h c (by simp), ih (fun a ha => h a (by simp [ha]))]

theorem sum_map_set_balance {α : Type} (f : α → Nat) (l : List α) (i : Nat) (a x : α)
    (h : l[i]? = some a) :
    ((l.set i x).map f).sum + f a = (l.map f).sum + f x := by
  have hi : i < l.length := by
    by_contra hc
    simp [List.getElem?_eq_none (Nat.le_of_not_lt hc)] at h
  have ha : l[i] = a := by
    have := h
    rw [List.getElem?_eq_getElem hi] at this
    simpa using this
  rw [List.set_eq_take_cons_drop x hi]
  conv_rhs => rw [← List.take_append_drop i l, List.drop_eq_getElem_cons hi, ha]
  simp [List.sum_append]
  omega

theorem set_concat_self {α : Type} (l : List α) (a b : α) :
    (l ++ [a]).set l.length b = l ++ [b] := by
  induction l with
  | nil => rfl
  | cons c rest ih => simp [List.set, ih]

/-- The predicate counted by `n_current`: callers between their increment
and their decrement. -/
def entered (pc : RPC) : Bool :=
  match pc with
  | .exitDec => true
  | .waiting => true
  | .running => true
  | _ => false

/-- The leader predicate. -/
def leading (pc : RPC) : Bool :=
  match pc with
  | .waiting => true
  | .running => true
  | _ => false

theorem rInv_eq (s : RState) : rInv s =
    (s.n = s.pcs.countP entered ∧ s.pcs.countP leading ≤ 1) := by
  unfold rInv
  have h1 : s.pcs.countP (fun pc => pc = .exitDec ∨ pc = .waiting ∨ pc = .running) =
      s.pcs.countP entered :=
    countP_congr_mem _ _ _ (fun pc _ => by cases pc <;> simp [entered])
  have h2 : s.pcs.countP (fun pc => pc = .waiting ∨ pc = .running) =
      s.pcs.countP leading :=
    countP_congr_mem _ _ _ (fun pc _ => by cases pc <;> simp [leading])
  rw [h1, h2]

theorem leading_le_entered (s : RState) :
    s.pcs.countP leading ≤ s.pcs.countP entered := by
  apply countP_mono_pred
  intro pc _ h
  cases pc <;> simp [leading, entered] at h ⊢

theorem rInv_step (s : RState) (iok : Nat × Bool) (h : rInv s) : rInv (rstep s iok) := by
  rw [rInv_eq] at h
  rw [rInv_eq]
  obtain ⟨hn, hld⟩ := h
  cases hg : s.pcs[iok.1]? with
  | none =>
    have hstep : rstep s iok = s := by simp [rstep, hg]
    rw [hstep]
    try dsimp only
    exact ⟨hn, hld⟩
  | some pc =>
    have hball := countP_set_balance leading s.pcs iok.1 pc
    have hbale := countP_set_balance entered s.pcs iok.1 pc
    cases pc with
    | start =>
      by_cases hn0 : s.n = 0
      · have hstep : rstep s iok = ⟨s.pcs.set iok.1 .waiting, 1⟩ := by
          simp [rstep, hg, hn0]
        rw [hstep]
        try dsimp only
        have he := hbale .waiting hg
        have hl := hball .waiting hg
        simp [entered, leading] at he hl
        have hle := leading_le_entered s
        constructor
        · omega
        · omega
      · have hstep : rstep s iok = ⟨s.pcs.set iok.1 .exitDec, s.n + 1⟩ := by
          simp [rstep, hg, hn0]
        rw [hstep]
        try dsimp only
        have he := hbale .exitDec hg
        have hl := hball .exitDec hg
        simp [entered, leading] at he hl
        exact ⟨by omega, by omega⟩
    | exitDec =>
      have hstep : rstep s iok = ⟨s.pcs.set iok.1 .doneIdle, s.n - 1⟩ := by
        simp [rstep, hg]
      rw [hstep]
      try dsimp only
      have he := hbale .doneIdle hg
      have hl := hball .doneIdle hg
      simp [entered, leading] at he hl
      have hpos : 1 ≤ s.pcs.countP entered := by
        have : 0 < s.pcs.countP entered :=
          List.countP_pos_iff.mpr ⟨.exitDec, List.getElem?_mem hg, by simp [entered]⟩
        omega
      exact ⟨by omega, by omega⟩
    | waiting =>
      by_cases hle : s.n ≤ 1
      · have hstep : rstep s iok = ⟨s.pcs.set iok.1 .running, s.n⟩ := by
          simp [rstep, hg, hle]
        rw [hstep]
        try dsimp only
        have he := hbale .running hg
        have hl := hball .running hg
        simp [entered, leading] at he hl
        exact ⟨by omega, by omega⟩
      · have hstep : rstep s iok = s := by simp [rstep, hg, hle]
        rw [hstep]
        try dsimp only
        exact ⟨hn, hld⟩
    | running =>
      have hstep : rstep s iok = ⟨s.pcs.set iok.1 (.doneRan iok.2), s.n - 1⟩ := by
        simp [rstep, hg]
      rw [hstep]
      try dsimp only
      have he := hbale (.doneRan iok.2) hg
      have hl := hball (.doneRan iok.2) hg
      simp [entered, leading] at he hl
      have hpos : 1 ≤ s.pcs.countP entered := by
        have : 0 < s.pcs.countP entered :=
          List.countP_pos_iff.mpr ⟨.running, List.getElem?_mem hg, by simp [entered]⟩
        omega
      exact ⟨by omega, by omega⟩
    | doneRan ok =>
      have hstep : rstep s iok = s := by simp [rstep, hg]
      rw [hstep]
      try dsimp only
      exact ⟨hn, hld⟩
    | doneIdle =>
      have hstep : rstep s iok = s := by simp [rstep, hg]
      rw [hstep]
      try dsimp only
      exact ⟨hn, hld⟩

theorem rInv_run (s : RState) (sched : List (Nat × Bool)) (h : rInv s) :
    rInv (rrun s sched) := by
  induction sched generalizing s with
  | nil => exact h
  | cons iok rest ih => exact ih (rstep s iok) (rInv_step s iok h)

theorem rInv_init (nThreads : Nat) : rInv (rinit nThreads) := by
  rw [rInv_eq]
  have he : (rinit nThreads).pcs.countP entered = 0 := by
    rw [List.countP_eq_zero]
    intro pc hpc
    have := List.eq_of_mem_replicate hpc
    simp [this, entered]
  have hl : (rinit nThreads).pcs.countP leading = 0 := by
    rw [List.countP_eq_zero]
    intro pc hpc
    have := List.eq_of_mem_replicate hpc
    simp [this, leading]
  rw [he, hl]
  exact ⟨rfl, by omega⟩


/-- Winner predicate: a caller that is leading or has finished a builder
run. -/
def winnerP (pc : RPC) : Bool :=
  match pc with
  | .waiting => true
  | .running => true
  | .doneRan _ => true
  | _ => false

theorem winners_eq (s : RState) : winners s = s.pcs.countP winnerP := by
  unfold winners
  exact countP_congr_mem _ _ _ (fun pc _ => by cases pc <;> simp [winnerP, ranBuilder])

/-- The burst invariant: the basic invariant, at most one winner so far, and
a winner exists unless nobody has entered yet. -/
def bInv (s : RState) : Prop :=
  rInv s ∧ s.pcs.countP winnerP ≤ 1 ∧
    ((∀ pc ∈ s.pcs, pc = .start) ∨ 1 ≤ s.pcs.countP winnerP)

theorem ranCount_le_winners (s : RState) : ranCount s ≤ s.pcs.countP winnerP := by
  apply countP_mono_pred
  intro pc _ h
  cases pc <;> simp [ranBuilder, winnerP] at h ⊢

theorem bInv_step (s : RState) (iok : Nat × Bool) (hburst : burstCond s = true)
    (h : bInv s) : bInv (rstep s iok) := by
  obtain ⟨hinv, hw1, hw2⟩ := h
  refine ⟨rInv_step s iok hinv, ?_⟩
  rw [rInv_eq] at hinv
  obtain ⟨hn, hld⟩ := hinv
  cases hg : s.pcs[iok.1]? with
  | none =>
    have hstep : rstep s iok = s := by simp [rstep, hg]
    rw [hstep]
    exact ⟨hw1, hw2⟩
  | some pc =>
    have hbal := countP_set_balance winnerP s.pcs iok.1 pc
    cases pc with
    | start =>
      by_cases hn0 : s.n = 0
      · have hstep : rstep s iok = ⟨s.pcs.set iok.1 .waiting, 1⟩ := by
          simp [rstep, hg, hn0]
        rw [hstep]
        dsimp only
        have hb := hbal .waiting hg
        simp [winnerP] at hb
        -- no builder run finished yet in this burst: the stepping caller is
        -- still at start, so burstCond forces ranCount = 0
        have hstart : 1 ≤ startCount s := by
          have : 0 < startCount s :=
            List.countP_pos_iff.mpr ⟨.start, List.getElem?_mem hg, by simp⟩
          omega
        have hran0 : ranCount s = 0 := by
          unfold burstCond at hburst
          simp only [Bool.or_eq_true, decide_eq_true_eq] at hburst
          rcases hburst with hb2 | hb2
          · omega
          · exact hb2
        -- counters: no leader (entered count = n = 0), no finished run
        have hlead0 : s.pcs.countP leading = 0 := by
          have := leading_le_entered s
          omega
        have hwin0 : s.pcs.countP winnerP = 0 := by
          have hsplit : s.pcs.countP winnerP ≤ s.pcs.countP leading + ranCount s := by
            unfold ranCount
            induction s.pcs with
            | nil => simp
            | cons c rest ih =>
              simp only [List.countP_cons]
              cases c <;> simp [winnerP, leading, ranBuilder] <;> omega
          omega
        rw [hwin0] at hb
        exact ⟨by omega, Or.inr (by omega)⟩
      · have hstep : rstep s iok = ⟨s.pcs.set iok.1 .exitDec, s.n + 1⟩ := by
          simp [rstep, hg, hn0]
        rw [hstep]
        dsimp only
        have hb := hbal .exitDec hg
        simp [winnerP] at hb
        have hwge : 1 ≤ s.pcs.countP winnerP := by
          rcases hw2 with hall | hge
          · -- all at start means nobody entered, so n = 0, contradiction
            have : s.pcs.countP entered = 0 := by
              rw [List.countP_eq_zero]
              intro pc2 hpc2
              simp [hall pc2 hpc2, entered]
            omega
          · exact hge
        exact ⟨by omega, Or.inr (by omega)⟩
    | exitDec =>
      have hstep : rstep s iok = ⟨s.pcs.set iok.1 .doneIdle, s.n - 1⟩ := by
        simp [rstep, hg]
      rw [hstep]
      dsimp only
      have hb := hbal .doneIdle hg
      simp [winnerP] at hb
      have hwge : 1 ≤ s.pcs.countP winnerP := by
        rcases hw2 with hall | hge
        · have := hall .exitDec (List.getElem?_mem hg)
          cases this
        · exact hge
      exact ⟨by omega, Or.inr (by omega)⟩
    | waiting =>
      by_cases hle : s.n ≤ 1
      · have hstep : rstep s iok = ⟨s.pcs.set iok.1 .running, s.n⟩ := by
          simp [rstep, hg, hle]
        rw [hstep]
        dsimp only
        have hb := hbal .running hg
        simp [winnerP] at hb
        have hpos : 1 ≤ s.pcs.countP winnerP := by
          have : 0 < s.pcs.countP winnerP :=
            List.countP_pos_iff.mpr ⟨.waiting, List.getElem?_mem hg, by simp [winnerP]⟩
          omega
        exact ⟨by omega, Or.inr (by omega)⟩
      · have hstep : rstep s iok = s := by simp [rstep, hg, hle]
        rw [hstep]
        exact ⟨hw1, hw2⟩
    | running =>
      have hstep : rstep s iok = ⟨s.pcs.set iok.1 (.doneRan iok.2), s.n - 1⟩ := by
        simp [rstep, hg]
      rw [hstep]
      dsimp only
      have hb := hbal (.doneRan iok.2) hg
      simp [winnerP] at hb
      have hpos : 1 ≤ s.pcs.countP winnerP := by
        have : 0 < s.pcs.countP winnerP :=
          List.countP_pos_iff.mpr ⟨.running, List.getElem?_mem hg, by simp [winnerP]⟩
        omega
      exact ⟨by omega, Or.inr (by omega)⟩
    | doneRan ok =>
      have hstep : rstep s iok = s := by simp [rstep, hg]
      rw [hstep]
      exact ⟨hw1, hw2⟩
    | doneIdle =>
      have hstep : rstep s iok = s := by simp [rstep, hg]
      rw [hstep]
      exact ⟨hw1, hw2⟩

theorem bInv_run (s : RState) (sched : List (Nat × Bool))
    (hburst : allAlong burstCond s sched = true) (h : bInv s) : bInv (rrun s sched) := by
  induction sched generalizing s with
  | nil => exact h
  | cons iok rest ih =>
    simp only [allAlong, Bool.and_eq_true] at hburst
    exact ih (rstep s iok) hburst.2 (bInv_step s iok hburst.1 h)

theorem bInv_init (nThreads : Nat) : bInv (rinit nThreads) := by
  refine ⟨rInv_init nThreads, ?_, Or.inl ?_⟩
  · have : (rinit nThreads).pcs.countP winnerP = 0 := by
      rw [List.countP_eq_zero]
      intro pc hpc
      simp [List.eq_of_mem_replicate hpc, winnerP]
    omega
  · intro pc hpc
    exact List.eq_of_mem_replicate hpc


theorem rstep_pcs_len (s : RState) (iok : Nat × Bool) :
    (rstep s iok).pcs.length = s.pcs.length := by
  cases hg : s.pcs[iok.1]? with
  | none => simp [rstep, hg]
  | some pc => cases pc <;> simp [rstep, hg] <;> split <;> simp

theorem rrun_pcs_len (s : RState) (sched : List (Nat × Bool)) :
    (rrun s sched).pcs.length = s.pcs.length := by
  induction sched generalizing s with
  | nil => rfl
  | cons iok rest ih => rw [show rrun s (iok :: rest) = rrun (rstep s iok) rest from rfl,
      ih, rstep_pcs_len]

theorem rdone_weight (pc : RPC) (h : rdone pc = true) : rweight pc = 0 := by
  cases pc <;> simp [rdone] at h <;> rfl

theorem weight_rdone (pc : RPC) (h : rweight pc = 0) : rdone pc = true := by
  cases pc <;> simp [rweight] at h <;> rfl

theorem rInv_completion_aux :
    ∀ (m : Nat) (s : RState), rmeasure s ≤ m → rInv s →
      ∃ sched, rAllDone (rrun s sched) = true := by
  intro m
  induction m with
  | zero =>
    intro s hm hinv
    refine ⟨[], ?_⟩
    show s.pcs.all rdone = true
    rw [List.all_eq_true]
    intro pc hpc
    apply weight_rdone
    have : rweight pc ∈ s.pcs.map rweight := List.mem_map_of_mem rweight hpc
    have hz : (s.pcs.map rweight).sum = 0 := by
      unfold rmeasure at hm
      omega
    exact List.sum_eq_zero_iff.mp hz _ this
  | succ m ih =>
    intro s hm hinv
    by_cases hd : rAllDone s = true
    · exact ⟨[], hd⟩
    · have hdec : ∃ i, rmeasure (rstep s (i, true)) < rmeasure s := by
        by_cases hE : ∃ i : Nat, s.pcs[i]? = some RPC.exitDec
        · obtain ⟨i, hi⟩ := hE
          refine ⟨i, ?_⟩
          have hstep : rstep s (i, true) = ⟨s.pcs.set i .doneIdle, s.n - 1⟩ := by
            simp [rstep, hi]
          have hb := sum_map_set_balance rweight s.pcs i .exitDec .doneIdle hi
          rw [hstep]
          unfold rmeasure
          simp [rweight] at hb ⊢
          omega
        · by_cases hR : ∃ i : Nat, s.pcs[i]? = some RPC.running
          · obtain ⟨i, hi⟩ := hR
            refine ⟨i, ?_⟩
            have hstep : rstep s (i, true) = ⟨s.pcs.set i (.doneRan true), s.n - 1⟩ := by
              simp [rstep, hi]
            have hb := sum_map_set_balance rweight s.pcs i .running (.doneRan true) hi
            rw [hstep]
            unfold rmeasure
            simp [rweight] at hb ⊢
            omega
          · by_cases hW : ∃ i : Nat, s.pcs[i]? = some RPC.waiting
            · obtain ⟨i, hi⟩ := hW
              refine ⟨i, ?_⟩
              -- no exit-pending and no running caller: n equals the number
              -- of waiting callers, which the invariant bounds by one
              have hcongr : s.pcs.countP entered = s.pcs.countP leading := by
                apply countP_congr_mem
                intro pc hpc
                cases hpcc : pc <;> simp [entered, leading]
                exact absurd (by
                  obtain ⟨k, hk⟩ := (getq_mem_iff s.pcs pc).mp hpc
                  exact ⟨k, hpcc ▸ hk⟩) hE
              rw [rInv_eq] at hinv
              have hn1 : s.n ≤ 1 := by omega
              have hstep : rstep s (i, true) = ⟨s.pcs.set i .running, s.n⟩ := by
                simp [rstep, hi, hn1]
              have hb := sum_map_set_balance rweight s.pcs i .waiting .running hi
              rw [hstep]
              unfold rmeasure
              simp [rweight] at hb ⊢
              omega
            · -- some caller is not done; it can only be at start
              have hnd : ∃ pc ∈ s.pcs, ¬ rdone pc = true := by
                by_contra hc
                push_neg at hc
                exact hd (List.all_eq_true.mpr (fun pc hpc => hc pc hpc))
              obtain ⟨pc0, hpc0, hnd0⟩ := hnd
              obtain ⟨i, hi⟩ := (getq_mem_iff s.pcs pc0).mp hpc0
              have hstart : pc0 = .start := by
                cases hc : pc0
                · rfl
                · exact absurd ⟨i, hc ▸ hi⟩ hE
                · exact absurd ⟨i, hc ▸ hi⟩ hW
                · exact absurd ⟨i, hc ▸ hi⟩ hR
                · rw [hc] at hnd0
                  simp [rdone] at hnd0
                · rw [hc] at hnd0
                  simp [rdone] at hnd0
              rw [hstart] at hi
              refine ⟨i, ?_⟩
              by_cases hn0 : s.n = 0
              · have hstep : rstep s (i, true) = ⟨s.pcs.set i .waiting, 1⟩ := by
                  simp [rstep, hi, hn0]
                have hb := sum_map_set_balance rweight s.pcs i .start .waiting hi
                rw [hstep]
                unfold rmeasure
                simp [rweight] at hb ⊢
                omega
              · have hstep : rstep s (i, true) = ⟨s.pcs.set i .exitDec, s.n + 1⟩ := by
                  simp [rstep, hi, hn0]
                have hb := sum_map_set_balance rweight s.pcs i .start .exitDec hi
                rw [hstep]
                unfold rmeasure
                simp [rweight] at hb ⊢
                omega
      obtain ⟨i, hlt⟩ := hdec
      have hle : rmeasure (rstep s (i, true)) ≤ m := by omega
      obtain ⟨sched, hs⟩ := ih (rstep s (i, true)) hle (rInv_step s (i, true) hinv)
      exact ⟨(i, true) :: sched, hs⟩


/-- C7: `rebuildHugo` coalesces concurrent rebuild requests. Four parts:
(1) two external builder processes never run at the same time; (2) in any
completed burst (no caller arriving after some builder run already
finished) of at least one caller, exactly one builder invocation occurred;
(3) from any reachable state there is a schedule finishing every caller,
so the coalescer never deadlocks; (4) even when a burst contained a failed
builder run (the code ignores `cmd.Run()`'s error and still decrements
`n_current`), a freshly arriving caller enters, runs the builder itself
and returns — a failure does not poison later rebuilds. -/
theorem c7_rebuild_coalescing :
    (∀ (nT : Nat) (sched : List (Nat × Bool)),
      runningCount (rrun (rinit nT) sched) ≤ 1) ∧
    (∀ (nT : Nat) (sched : List (Nat × Bool)), 1 ≤ nT →
      allAlong burstCond (rinit nT) sched = true →
      rAllDone (rrun (rinit nT) sched) = true →
      ranCount (rrun (rinit nT) sched) = 1) ∧
    (∀ (nT : Nat) (sched : List (Nat × Bool)),
      ∃ sched2 : List (Nat × Bool),
        rAllDone (rrun (rrun (rinit nT) sched) sched2) = true) ∧
    (∀ (nT : Nat) (sched : List (Nat × Bool)) (ok : Bool) (j : Nat),
      rAllDone (rrun (rinit nT) sched) = true →
      (rrun (rinit nT) sched).pcs[j]? = some (RPC.doneRan false) →
      (rrun (appendCaller (rrun (rinit nT) sched))
          [((rrun (rinit nT) sched).pcs.length, true),
           ((rrun (rinit nT) sched).pcs.length, true),
           ((rrun (rinit nT) sched).pcs.length, ok)]).pcs[
        (rrun (rinit nT) sched).pcs.length]? = some (RPC.doneRan ok)) := by
  refine ⟨?_, ?_, ?_, ?_⟩
  · -- mutual exclusion of builder runs
    intro nT sched
    have hinv := rInv_run (rinit nT) sched (rInv_init nT)
    rw [rInv_eq] at hinv
    unfold runningCount
    refine le_trans ?_ hinv.2
    apply countP_mono_pred
    intro pc _ h
    cases pc <;> simp [leading] at h ⊢
  · -- exactly one builder invocation per completed burst
    intro nT sched hN hall hdone
    have hb := bInv_run (rinit nT) sched hall (bInv_init nT)
    obtain ⟨_, hw1, hw2⟩ := hb
    have hall' : (rrun (rinit nT) sched).pcs.all rdone = true := hdone
    rw [List.all_eq_true] at hall'
    have heq : (rrun (rinit nT) sched).pcs.countP ranBuilder =
        (rrun (rinit nT) sched).pcs.countP winnerP := by
      apply countP_congr_mem
      intro pc hpc
      have hdpc := hall' pc hpc
      cases pc
      · simp [rdone] at hdpc
      · simp [rdone] at hdpc
      · simp [rdone] at hdpc
      · simp [rdone] at hdpc
      · rfl
      · rfl
    have hlen : (rrun (rinit nT) sched).pcs.length = nT := by
      rw [rrun_pcs_len]
      simp [rinit]
    have hne : (rrun (rinit nT) sched).pcs ≠ [] := by
      intro hc
      rw [hc] at hlen
      simp at hlen
      omega
    obtain ⟨pc0, hpc0⟩ := List.exists_mem_of_ne_nil _ hne
    rcases hw2 with hstart | hpos
    · have h0 := hstart pc0 hpc0
      have hd0 := hall' pc0 hpc0
      rw [h0] at hd0
      simp [rdone] at hd0
    · unfold ranCount
      rw [heq]
      omega
  · -- no deadlock: a completing schedule always exists
    intro nT sched
    exact rInv_completion_aux (rmeasure (rrun (rinit nT) sched)) _ le_rfl
      (rInv_run _ _ (rInv_init nT))
  · -- a failed run does not poison the next rebuild
    intro nT sched ok j hdone hj
    have hinv := rInv_run (rinit nT) sched (rInv_init nT)
    rw [rInv_eq] at hinv
    have hall' : (rrun (rinit nT) sched).pcs.all rdone = true := hdone
    rw [List.all_eq_true] at hall'
    have hn0 : (rrun (rinit nT) sched).n = 0 := by
      have hz : (rrun (rinit nT) sched).pcs.countP entered = 0 := by
        rw [List.countP_eq_zero]
        intro pc hpc
        have hd := hall' pc hpc
        cases pc
        · simp [rdone] at hd
        · simp [rdone] at hd
        · simp [rdone] at hd
        · simp [rdone] at hd
        · simp [entered]
        · simp [entered]
      omega
    have h1 : rstep (appendCaller (rrun (rinit nT) sched))
        ((rrun (rinit nT) sched).pcs.length, true) =
        ⟨(rrun (rinit nT) sched).pcs ++ [RPC.waiting], 1⟩ := by
      simp [rstep, appendCaller, List.getElem?_concat_length, hn0, set_concat_self]
    have h2 : rstep (⟨(rrun (rinit nT) sched).pcs ++ [RPC.waiting], 1⟩ : RState)
        ((rrun (rinit nT) sched).pcs.length, true) =
        ⟨(rrun (rinit nT) sched).pcs ++ [RPC.running], 1⟩ := by
      simp [rstep, List.getElem?_concat_length, set_concat_self]
    have h3 : rstep (⟨(rrun (rinit nT) sched).pcs ++ [RPC.running], 1⟩ : RState)
        ((rrun (rinit nT) sched).pcs.length, ok) =
        ⟨(rrun (rinit nT) sched).pcs ++ [RPC.doneRan ok], 0⟩ := by
      simp [rstep, List.getElem?_concat_length, set_concat_self]
    have hr : rrun (appendCaller (rrun (rinit nT) sched))
        [((rrun (rinit nT) sched).pcs.length, true),
         ((rrun (rinit nT) sched).pcs.length, true),
         ((rrun (rinit nT) sched).pcs.length, ok)] =
        ⟨(rrun (rinit nT) sched).pcs ++ [RPC.doneRan ok], 0⟩ := by
      show rstep (rstep (rstep (appendCaller (rrun (rinit nT) sched)) _) _) _ = _
      rw [h1, h2, h3]
    rw [hr]
    exact List.getElem?_concat_length _ _


theorem c7_rebuild_coalescing_witness :
    ranCount (rrun (rinit 2) [(0, true), (1, true), (1, true), (0, true), (0, false)]) = 1 ∧
    (rrun (appendCaller (rrun (rinit 1) [(0, false), (0, false), (0, false)]))
        [((rrun (rinit 1) [(0, false), (0, false), (0, false)]).pcs.length, true),
         ((rrun (rinit 1) [(0, false), (0, false), (0, false)]).pcs.length, true),
         ((rrun (rinit 1) [(0, false), (0, false), (0, false)]).pcs.length, true)]).pcs[
      (rrun (rinit 1) [(0, false), (0, false), (0, false)]).pcs.length]? =
      some (RPC.doneRan true) := by
  constructor
  · exact c7_rebuild_coalescing.2.1 2
      [(0, true), (1, true), (1, true), (0, true), (0, false)]
      (by decide) (by decide) (by decide)
  · exact c7_rebuild_coalescing.2.2.2 1 [(0, false), (0, false), (0, false)] true 0
      (by decide) (by decide)

end HugoGallery
